import Mathlib

/-!
# Verification of the json-mcp path-addressable JSON mutation engine

This development embeds the core of the `json-mcp` repository (`src/tools.ts`):
the JSON value model, the text search helper `searchInJSON`, the query helper
`queryByPath`, and the mutation operations `replaceAtPath`,
`appendToArrayAtPath`, `setAtPath` (including its string-level
`splitParentAndKey` helper) and `deleteAtPath`.

Modelling conventions:

* JSON numbers are modelled as integers (every numeric literal appearing in the
  verified properties is an integer; floating-point formatting is out of scope).
* Maps are association lists preserving insertion order, with unique keys by
  construction of the values used (mirroring JavaScript object semantics).
* The external `jsonpath-plus` evaluator is not part of the repository; per the
  spec it is a black box yielding location records in depth-first document
  order.  It is modelled here (`PathExpr`, `resolve`, `parsePath`) from the
  spec, restricted to the path forms the verified properties use: root `$`,
  child `.name` / `['name']`, index `[i]`, wildcard `[*]`, and the equality
  filter `[?(@.key=='value')]`.
* The source mutates the cloned document through live parent references; per
  the spec's design notes this is reframed as route-indexed access: a location
  record is a `Route` (sequence of keys/indices from the root), a record with
  no parent is the empty route, and each edit re-descends from the root.
-/

namespace JsonMcp

/-- JSON values: the recursive sum `Null | Bool | Number | String | Array |
Map` from `src/types` (zod `JsonValueSchema`), with maps as insertion-ordered
association lists and numbers restricted to integers. -/
inductive JsonValue where
  | null : JsonValue
  | bool (b : Bool) : JsonValue
  | num (n : Int) : JsonValue
  | str (s : String) : JsonValue
  | arr (elems : List JsonValue) : JsonValue
  | obj (fields : List (String × JsonValue)) : JsonValue
deriving Repr

mutual

def beqJ : JsonValue → JsonValue → Bool
  | .null, .null => true
  | .bool a, .bool b => a == b
  | .num a, .num b => a == b
  | .str a, .str b => a == b
  | .arr xs, .arr ys => beqL xs ys
  | .obj fs, .obj gs => beqO fs gs
  | _, _ => false

def beqL : List JsonValue → List JsonValue → Bool
  | [], [] => true
  | x :: xs, y :: ys => beqJ x y && beqL xs ys
  | _, _ => false

def beqO : List (String × JsonValue) → List (String × JsonValue) → Bool
  | [], [] => true
  | (k, v) :: fs, (k', v') :: gs => k == k' && beqJ v v' && beqO fs gs
  | _, _ => false

end

mutual

def beqJIff : ∀ (a b : JsonValue), (beqJ a b = true) ↔ a = b
  | .null, b => by cases b <;> simp [beqJ]
  | .bool a, b => by cases b <;> simp [beqJ]
  | .num a, b => by cases b <;> simp [beqJ]
  | .str a, b => by cases b <;> simp [beqJ]
  | .arr xs, b => by
      cases b <;> simp [beqJ]
      exact beqLIff xs _
  | .obj fs, b => by
      cases b <;> simp [beqJ]
      exact beqOIff fs _

def beqLIff : ∀ (a b : List JsonValue), (beqL a b = true) ↔ a = b
  | [], b => by cases b <;> simp [beqL]
  | x :: xs, b => by
      cases b with
      | nil => simp [beqL]
      | cons y ys => simp [beqL, beqJIff x y, beqLIff xs ys]

def beqOIff : ∀ (a b : List (String × JsonValue)), (beqO a b = true) ↔ a = b
  | [], b => by cases b <;> simp [beqO]
  | (k, v) :: fs, b => by
      cases b with
      | nil => simp [beqO]
      | cons g gs =>
          obtain ⟨k', v'⟩ := g
          simp [beqO, beqJIff v v', beqOIff fs gs, Prod.ext_iff]

end

instance : DecidableEq JsonValue := fun a b =>
  decidable_of_iff (beqJ a b = true) (beqJIff a b)

mutual

def deepClone : JsonValue → JsonValue
  | .null => .null
  | .bool b => .bool b
  | .num n => .num n
  | .str s => .str s
  | .arr xs => .arr (deepCloneL xs)
  | .obj fs => .obj (deepCloneO fs)

def deepCloneL : List JsonValue → List JsonValue
  | [] => []
  | x :: xs => deepClone x :: deepCloneL xs

def deepCloneO : List (String × JsonValue) → List (String × JsonValue)
  | [] => []
  | (k, v) :: fs => (k, deepClone v) :: deepCloneO fs

end

/-- Map lookup: the value under key `k`, as a JavaScript property read on an
object whose keys are unique. -/
def objGet : List (String × JsonValue) → String → Option JsonValue
  | [], _ => none
  | (k', v) :: fs, k => if k' = k then some v else objGet fs k

/-- Map update, as JavaScript property assignment `o[k] = v`: an existing key
keeps its position and gets the new value; a missing key is appended. -/
def objSet : List (String × JsonValue) → String → JsonValue → List (String × JsonValue)
  | [], k, v => [(k, v)]
  | (k', v') :: fs, k, v => if k' = k then (k, v) :: fs else (k', v') :: objSet fs k v

/-- Map removal, as JavaScript `delete o[k]` on an object with unique keys. -/
def objDelete : List (String × JsonValue) → String → List (String × JsonValue)
  | [], _ => []
  | (k', v') :: fs, k => if k' = k then fs else (k', v') :: objDelete fs k

/-- One step of a location route: an array index or a map key (the
`parentProperty` of a jsonpath-plus location record). -/
inductive PathStep where
  | index (i : Nat) : PathStep
  | key (k : String) : PathStep
deriving Repr, DecidableEq

/-- A location route: the sequence of keys/indices leading from the document
root to a node.  The empty route is the document root (a location record with
no parent). -/
abbrev Route := List PathStep

/-- Read the node at a route, `none` if the route does not exist. -/
def getAt : JsonValue → Route → Option JsonValue
  | d, [] => some d
  | .arr xs, .index i :: rest =>
      match xs[i]? with
      | some x => getAt x rest
      | none => none
  | .obj fs, .key k :: rest =>
      match objGet fs k with
      | some x => getAt x rest
      | none => none
  | _, _ => none

/-- Overwrite the node at a route (the reference write `parent[key] = v` of
the source, re-descending from the root).  A route that does not exist leaves
the document unchanged; resolved routes always exist. -/
def setAt : JsonValue → Route → JsonValue → JsonValue
  | _, [], v => v
  | .arr xs, .index i :: rest, v =>
      match xs[i]? with
      | some x => .arr (xs.set i (setAt x rest v))
      | none => .arr xs
  | .obj fs, .key k :: rest, v =>
      match objGet fs k with
      | some x => .obj (objSet fs k (setAt x rest v))
      | none => .obj fs
  | d, _, _ => d

/-- Remove the node at a route from its parent: `parent.splice(key, 1)` for an
array parent, `delete parent[key]` for a map parent.  The empty route has no
parent, so — exactly as the source's `if (parent && parentProperty !==
undefined)` guard does — it is left unchanged. -/
def deleteAt : JsonValue → Route → JsonValue
  | d, [] => d
  | .arr xs, [.index i] => .arr (xs.eraseIdx i)
  | .obj fs, [.key k] => .obj (objDelete fs k)
  | .arr xs, .index i :: s :: rest =>
      match xs[i]? with
      | some x => .arr (xs.set i (deleteAt x (s :: rest)))
      | none => .arr xs
  | .obj fs, .key k :: s :: rest =>
      match objGet fs k with
      | some x => .obj (objSet fs k (deleteAt x (s :: rest)))
      | none => .obj fs
  | d, _ => d

/-- Modelled from the spec: the abstract syntax of the path-expression forms
used by the verified properties.  The grammar itself belongs to the external
`jsonpath-plus` evaluator (spec §4.1 treats it as a black box); only the
fragment exercised by the spec's properties is modelled. -/
inductive PathExpr where
  | root : PathExpr
  | child (p : PathExpr) (k : String) : PathExpr
  | index (p : PathExpr) (i : Nat) : PathExpr
  | wildcard (p : PathExpr) : PathExpr
  | filterEq (p : PathExpr) (k : String) (v : JsonValue) : PathExpr
deriving Repr, DecidableEq

/-- Number of steps every route resolved from a path expression has. -/
def depth : PathExpr → Nat
  | .root => 0
  | .child p _ => depth p + 1
  | .index p _ => depth p + 1
  | .wildcard p => depth p + 1
  | .filterEq p _ _ => depth p + 1

/-- Holds (is `true`) for path expressions without filter predicates (their resolution
depends only on the container structure of the document, not on leaf values). -/
def filterFree : PathExpr → Bool
  | .root => true
  | .child p _ => filterFree p
  | .index p _ => filterFree p
  | .wildcard p => filterFree p
  | .filterEq _ _ _ => false

/-- The equality filter `[?(@.k == v)]` applied to one array element: the
element is a map whose `k` member equals `v`. -/
def filterPred (k : String) (v : JsonValue) : JsonValue → Bool
  | .obj fs =>
      match objGet fs k with
      | some w => w = v
      | none => false
  | _ => false

/-- Modelled from the spec: path resolution (spec §4.1) — map a path
expression over a document to the ordered sequence of location routes, in
depth-first document order, exactly the `{value, parent, parentProperty}`
records the external evaluator yields.  An expression matching zero nodes
yields the empty sequence. -/
def resolve (doc : JsonValue) : PathExpr → List Route
  | .root => [[]]
  | .child p k =>
      (resolve doc p).filterMap (fun r =>
        match getAt doc r with
        | some (.obj fs) =>
            match objGet fs k with
            | some _ => some (r ++ [.key k])
            | none => none
        | _ => none)
  | .index p i =>
      (resolve doc p).filterMap (fun r =>
        match getAt doc r with
        | some (.arr xs) => if i < xs.length then some (r ++ [.index i]) else none
        | _ => none)
  | .wildcard p =>
      (resolve doc p).flatMap (fun r =>
        match getAt doc r with
        | some (.arr xs) => (List.range xs.length).map (fun i => r ++ [.index i])
        | some (.obj fs) => fs.map (fun kv => r ++ [.key kv.1])
        | _ => [])
  | .filterEq p k v =>
      (resolve doc p).flatMap (fun r =>
        match getAt doc r with
        | some (.arr xs) =>
            (List.range xs.length).filterMap (fun i =>
              match xs[i]? with
              | some x => if filterPred k v x then some (r ++ [.index i]) else none
              | none => none)
        | _ => [])

/-- The values matched by a path, in resolution order (`JSONPath` with
`wrap: true`). -/
def queryCore (data : JsonValue) (p : PathExpr) : List JsonValue :=
  (resolve data p).filterMap (fun r => getAt data r)

/-- The per-record body shared by `replaceAtPath` and `setAtPath`'s update
branch: `if (parent && parentProperty !== undefined) parent[parentProperty] =
value`, folded over the location records.  A root record (empty route) has no
parent and is skipped by the guard. -/
def sFold (v : JsonValue) : List Route → JsonValue → JsonValue
  | [], doc => doc
  | [] :: rs, doc => sFold v rs doc
  | (s :: t) :: rs, doc => sFold v rs (setAt doc (s :: t) v)

/-- The loop body of `appendToArrayAtPath`: each matched value must itself be
an array and gets `newValue` pushed onto its end; the first non-array match
throws, abandoning the working copy. -/
def aFold (v : JsonValue) : List Route → JsonValue → Except String JsonValue
  | [], doc => Except.ok doc
  | r :: rs, doc =>
      match getAt doc r with
      | some (.arr xs) => aFold v rs (setAt doc r (.arr (xs ++ [v])))
      | _ => Except.error "Path must point to array(s) to append into"

/-- The loop body of `deleteAtPath`: remove each location from its parent. -/
def dFold : List Route → JsonValue → JsonValue
  | [], doc => doc
  | r :: rs, doc => dFold rs (deleteAt doc r)

/-- The function `replaceAtPath` from `src/tools.ts` (clone, resolve, overwrite every
record that has a parent), with the path already resolved to location
routes against the clone. -/
def replaceCore (data : JsonValue) (p : PathExpr) (newValue : JsonValue) : JsonValue :=
  sFold newValue (resolve (deepClone data) p) (deepClone data)

/-- The function `appendToArrayAtPath` from `src/tools.ts` on a resolved path. -/
def appendCore (data : JsonValue) (p : PathExpr) (newValue : JsonValue) : Except String JsonValue :=
  aFold newValue (resolve (deepClone data) p) (deepClone data)

/-- The function `deleteAtPath` from `src/tools.ts` on a resolved path: the location
records are processed in reverse of resolution order (`results.reverse()`). -/
def deleteCore (data : JsonValue) (p : PathExpr) : JsonValue :=
  dFold (resolve (deepClone data) p).reverse (deepClone data)

/-- The single-quote character, written via its code point. -/
def squote : Char := Char.ofNat 39

/-- The double-quote character, written via its code point. -/
def dquote : Char := Char.ofNat 34

/-- The one-character string holding the single quote. -/
def sqStr : String := ⟨[squote]⟩

/-- A word character, `[A-Za-z0-9_]`. -/
def wordChar (c : Char) : Bool := c.isAlphanum || c == '_'

/-- Longest leading run of word characters, and the rest. -/
def takeWord : List Char → List Char × List Char
  | [] => ([], [])
  | c :: rest =>
      if wordChar c then
        let (w, r) := takeWord rest
        (c :: w, r)
      else ([], c :: rest)

/-- Longest leading run of characters different from `stop`, and the rest. -/
def takeUntil (stop : Char) : List Char → List Char × List Char
  | [] => ([], [])
  | c :: rest =>
      if c == stop then ([], c :: rest)
      else
        let (w, r) := takeUntil stop rest
        (c :: w, r)

/-- Digits of a numeral to its value. -/
def digitsToNat (ds : List Char) : Nat :=
  ds.foldl (fun n c => n * 10 + (c.toNat - 48)) 0

mutual

/-- Modelled from the spec: parse the segments of a path expression after the
leading `$` — `.name`, `['name']`, `[i]`, `[*]`, `[?(@.key=='value')]`, with a
`.` tolerated before a bracket (`.['name']`) as the external evaluator does.
The fuel argument bounds recursion and is initialised to the string length,
which every step stays below since each consumes at least one character. -/
def parseSegs : Nat → PathExpr → List Char → Option PathExpr
  | _, p, [] => some p
  | 0, _, _ => none
  | fuel + 1, p, '.' :: rest =>
      match rest with
      | '[' :: rest2 => parseBracket fuel p rest2
      | _ =>
          match takeWord rest with
          | ([], _) => none
          | (w, r) => parseSegs fuel (.child p ⟨w⟩) r
  | fuel + 1, p, '[' :: rest => parseBracket fuel p rest
  | _, _, _ => none

/-- Modelled from the spec: parse one bracket segment (after the `[`). -/
def parseBracket : Nat → PathExpr → List Char → Option PathExpr
  | 0, _, _ => none
  | fuel + 1, p, cs =>
      match cs with
      | '*' :: ']' :: rest => parseSegs fuel (.wildcard p) rest
      | '?' :: '(' :: '@' :: '.' :: rest =>
          match takeWord rest with
          | ([], _) => none
          | (k, r) =>
              match r with
              | '=' :: '=' :: q :: r2 =>
                  if q == squote then
                    match takeUntil squote r2 with
                    | (s, q2 :: ')' :: ']' :: rest2) =>
                        if q2 == squote then
                          parseSegs fuel (.filterEq p ⟨k⟩ (.str ⟨s⟩)) rest2
                        else none
                    | _ => none
                  else none
              | _ => none
      | c :: rest =>
          if c == squote then
            match takeUntil squote rest with
            | (w, q :: ']' :: rest2) =>
                if q == squote then parseSegs fuel (.child p ⟨w⟩) rest2 else none
            | _ => none
          else if c.isDigit then
            match takeWord (c :: rest) with
            | (ds, ']' :: rest2) => parseSegs fuel (.index p (digitsToNat ds)) rest2
            | _ => none
          else none
      | [] => none

end

/-- Modelled from the spec: the external evaluator's parser on the path-string
fragment used by the verified properties.  A path starts with `$`; a parse
failure is the spec's `InvalidPath`. -/
def parsePath (s : String) : Option PathExpr :=
  match s.data with
  | c :: rest => if c == '$' then parseSegs s.length PathExpr.root rest else none
  | [] => none

/-- One character of the right-to-left scan of `splitParentAndKey` in
`src/tools.ts`: the `depth`/`inSingle`/`inDouble` state update. -/
def scanStep (c : Char) (st : Int × Bool × Bool) : Int × Bool × Bool :=
  match st with
  | (dpt, inS, inD) =>
      if c == ']' && !inS && !inD then (dpt + 1, inS, inD)
      else if c == '[' && !inS && !inD then (dpt - 1, inS, inD)
      else if c == squote && !inD then (dpt, !inS, inD)
      else if c == dquote && !inS then (dpt, inS, !inD)
      else (dpt, inS, inD)

/-- The scan loop of `splitParentAndKey`: walk the reversed characters with
the running state, returning the index (in the original string) of the first
`.` found at bracket depth 0 outside quotes. -/
def splitScan : List Char → (Int × Bool × Bool) → Nat → Option Nat
  | [], _, _ => none
  | c :: rest, st, idx =>
      match scanStep c st with
      | (dpt, inS, inD) =>
          if c == '.' && dpt == 0 && !inS && !inD then some idx
          else splitScan rest (dpt, inS, inD) (idx - 1)

/-- The function `splitParentAndKey` from `src/tools.ts`: split a path string at the last
`.` that sits at bracket depth 0 outside single/double quotes, scanning from
the end; `none` when no such dot exists. -/
def splitParentAndKey (p : String) : Option (String × String) :=
  match splitScan p.data.reverse (0, false, false) (p.length - 1) with
  | none => none
  | some i => some (⟨p.data.take i⟩, ⟨p.data.drop (i + 1)⟩)

/-- The regex `^\[['\x22]?([A-Za-z0-9_]+)['\x22]?\]$` of `setAtPath`: an
optional quote after `[`, a word-character key, an optional quote, `]`. -/
def bracketKeyMatch (cs : List Char) : Option String :=
  match cs with
  | '[' :: rest =>
      let rest1 := match rest with
        | c :: r => if c == squote || c == dquote then r else c :: r
        | [] => []
      match takeWord rest1 with
      | ([], _) => none
      | (w, r1) =>
          let r2 := match r1 with
            | c :: r => if c == squote || c == dquote then r else c :: r
            | [] => []
          match r2 with
          | [']'] => some ⟨w⟩
          | _ => none
  | _ => none

/-- Key extraction of `setAtPath`'s creation branch: the bracket-regex capture
if the final segment is a bracket, else the segment with a leading `.`
stripped. -/
def extractKey (keyExpr : String) : String :=
  match bracketKeyMatch keyExpr.data with
  | some k => k
  | none =>
      match keyExpr.data with
      | '.' :: rest => ⟨rest⟩
      | cs => ⟨cs⟩

/-- The function `setAtPath` from `src/tools.ts`: if the path matches, overwrite the first
match (all matches when `all` is true) through the parent guard; otherwise
attempt safe creation — split the path string into parent path and final key,
resolve the parent path, and set the key on the first parent if it is a map.
No intermediate containers are ever created. -/
def setAtPath (data : JsonValue) (path : String) (value : JsonValue) (all : Bool) : Except String JsonValue :=
  match parsePath path with
  | none => Except.error "Failed to set at path"
  | some p =>
      match resolve (deepClone data) p with
      | r :: rs => Except.ok (sFold value (if all then r :: rs else [r]) (deepClone data))
      | [] =>
          match splitParentAndKey path with
          | none => Except.error "set supports only JSONPath expressions with a final property segment"
          | some (pp0, keyExpr) =>
              let parentPath := if pp0 = "" then "$" else pp0
              match parsePath parentPath with
              | none => Except.error "Failed to set at path"
              | some pp =>
                  match resolve (deepClone data) pp with
                  | [] => Except.error "Parent path not found"
                  | pr :: _ =>
                      match getAt (deepClone data) pr with
                      | some (.obj fs) =>
                          Except.ok (setAt (deepClone data) pr (.obj (objSet fs (extractKey keyExpr) value)))
                      | _ => Except.error "Parent must be an object to set a property"

/-- The function `queryByPath` from `src/tools.ts` (string interface). -/
def queryByPath (data : JsonValue) (path : String) : Except String (List JsonValue) :=
  match parsePath path with
  | some p => Except.ok (queryCore data p)
  | none => Except.error "Invalid JSONPath"

/-- The function `replaceAtPath` from `src/tools.ts` (string interface). -/
def replaceAtPath (data : JsonValue) (path : String) (newValue : JsonValue) : Except String JsonValue :=
  match parsePath path with
  | some p => Except.ok (replaceCore data p newValue)
  | none => Except.error "Failed to replace at path"

/-- The function `appendToArrayAtPath` from `src/tools.ts` (string interface); the catch
block rewraps the thrown message. -/
def appendToArrayAtPath (data : JsonValue) (path : String) (newValue : JsonValue) : Except String JsonValue :=
  match parsePath path with
  | some p =>
      match appendCore data p newValue with
      | Except.ok doc => Except.ok doc
      | Except.error e => Except.error ("Failed to append to array at path: " ++ e)
  | none => Except.error "Failed to append to array at path: invalid JSONPath"

/-- The function `deleteAtPath` from `src/tools.ts` (string interface). -/
def deleteAtPath (data : JsonValue) (path : String) : Except String JsonValue :=
  match parsePath path with
  | some p => Except.ok (deleteCore data p)
  | none => Except.error "Failed to delete at path"

/-- ASCII lowercasing, as `String.prototype.toLowerCase` on the ASCII data
the verified properties use. -/
def toLowerStr (s : String) : String := ⟨s.data.map Char.toLower⟩

/-- JavaScript `String.prototype.includes`: the needle occurs as a contiguous substring. -/
def strContains (hay needle : String) : Bool :=
  (List.range (hay.data.length + 1)).any (fun i => needle.data.isPrefixOf (hay.data.drop i))

/-- The canonical string form of a scalar (`String(obj)` in the source);
`none` for null and containers. -/
def scalarString : JsonValue → Option String
  | .str s => some s
  | .num n => some (toString n)
  | .bool b => some (if b then "true" else "false")
  | _ => none

mutual

/-- The recursive worker of `searchInJSON` in `src/tools.ts`: scalars are
matched case-insensitively against the needle, `null` is skipped, containers
are never matched themselves — only their children are traversed, arrays
appending `[index]` and maps appending `.key` to the path string. -/
def searchGo (nl : String) : JsonValue → String → List (String × JsonValue)
  | .null, _ => []
  | .str s, path => if strContains (toLowerStr s) nl then [(path, .str s)] else []
  | .num n, path => if strContains (toLowerStr (toString n)) nl then [(path, .num n)] else []
  | .bool b, path =>
      if strContains (toLowerStr (if b then "true" else "false")) nl then [(path, .bool b)] else []
  | .arr xs, path => searchArr nl xs path 0
  | .obj fs, path => searchObj nl fs path

/-- Array traversal of `searchInJSON` (`obj.forEach((item, index) => ...)`). -/
def searchArr (nl : String) : List JsonValue → String → Nat → List (String × JsonValue)
  | [], _, _ => []
  | x :: xs, path, i =>
      searchGo nl x (path ++ "[" ++ toString i ++ "]") ++ searchArr nl xs path (i + 1)

/-- Map traversal of `searchInJSON` (`Object.keys(obj).forEach(...)`). -/
def searchObj (nl : String) : List (String × JsonValue) → String → List (String × JsonValue)
  | [], _ => []
  | (k, v) :: fs, path => searchGo nl v (path ++ "." ++ k) ++ searchObj nl fs path

end

/-- The function `searchInJSON` from `src/tools.ts` with the default root path `$`. -/
def searchInJSON (data : JsonValue) (searchText : String) : List (String × JsonValue) :=
  searchGo (toLowerStr searchText) data "$"

/-- JavaScript `Array.isArray`. -/
def isArr : JsonValue → Bool
  | .arr _ => true
  | _ => false

/-- A map (non-null, non-array JavaScript object). -/
def isObj : JsonValue → Bool
  | .obj _ => true
  | _ => false

/-- A scalar in the spec's sense: string, number or boolean. -/
def isScalar : JsonValue → Bool
  | .str _ => true
  | .num _ => true
  | .bool _ => true
  | _ => false

/-- Two values with the same top-level shape: arrays of equal length, maps
with identical key sequences, or equal values.  Replacing a node deep inside a
document changes ancestors only up to this relation. -/
def sameTopShape : JsonValue → JsonValue → Prop
  | .arr xs, .arr ys => xs.length = ys.length
  | .obj fs, .obj gs => fs.map Prod.fst = gs.map Prod.fst
  | a, b => a = b

/-- The relation `sameTopShape` lifted to `Option`. -/
def sameTopShapeO : Option JsonValue → Option JsonValue → Prop
  | none, none => True
  | some a, some b => sameTopShape a b
  | _, _ => False

mutual

/-- Written to the spec's words, for comparison with `searchInJSON`: the
scalar (string/number/boolean) nodes of a document paired with their canonical
path strings — root `$`, array descent appending `[index]`, map descent
appending `.key` — in depth-first traversal order; null and container nodes
are never listed. -/
def specScalarLeaves : JsonValue → String → List (String × JsonValue)
  | .null, _ => []
  | .str s, path => [(path, .str s)]
  | .num n, path => [(path, .num n)]
  | .bool b, path => [(path, .bool b)]
  | .arr xs, path => specScalarLeavesArr xs path 0
  | .obj fs, path => specScalarLeavesObj fs path

/-- Array case of `specScalarLeaves`. -/
def specScalarLeavesArr : List JsonValue → String → Nat → List (String × JsonValue)
  | [], _, _ => []
  | x :: xs, path, i =>
      specScalarLeaves x (path ++ "[" ++ toString i ++ "]") ++ specScalarLeavesArr xs path (i + 1)

/-- Map case of `specScalarLeaves`. -/
def specScalarLeavesObj : List (String × JsonValue) → String → List (String × JsonValue)
  | [], _ => []
  | (k, v) :: fs, path => specScalarLeaves v (path ++ "." ++ k) ++ specScalarLeavesObj fs path

end

/-- Written to the spec's words: a scalar node matches when its canonical
string form contains the needle case-insensitively. -/
def needleMatches (needle : String) (v : JsonValue) : Bool :=
  match scalarString v with
  | some s => strContains (toLowerStr s) (toLowerStr needle)
  | none => false

/-- A scalar whose canonical string contains the (already lowercased) needle. -/
def scalarHit (nl : String) (v : JsonValue) : Bool :=
  match scalarString v with
  | some str0 => strContains (toLowerStr str0) nl
  | none => false

/-- No string occurs twice. -/
def keysDistinct : List String → Bool
  | [] => true
  | k :: ks => !ks.contains k && keysDistinct ks

mutual

/-- The spec's map invariant (JavaScript objects cannot repeat a key): every
map in the document has pairwise-distinct keys. -/
def wellFormed : JsonValue → Bool
  | .null => true
  | .bool _ => true
  | .num _ => true
  | .str _ => true
  | .arr xs => wellFormedL xs
  | .obj fs => keysDistinct (fs.map Prod.fst) && wellFormedO fs

/-- Conjunction of `wellFormed` over the elements of an array. -/
def wellFormedL : List JsonValue → Bool
  | [] => true
  | x :: xs => wellFormed x && wellFormedL xs

/-- Conjunction of `wellFormed` over the values of a map. -/
def wellFormedO : List (String × JsonValue) → Bool
  | [] => true
  | (_, v) :: fs => wellFormed v && wellFormedO fs

end

/-- The ascending positions in a list whose element satisfies `pred`. -/
def matchIdx (pred : JsonValue → Bool) : List JsonValue → List Nat
  | [] => []
  | x :: xs => (if pred x then [0] else []) ++ (matchIdx pred xs).map (fun i => i + 1)

-- ## Lemmas

mutual

theorem deepClone_eq : ∀ (d : JsonValue), deepClone d = d
  | .null => rfl
  | .bool _ => rfl
  | .num _ => rfl
  | .str _ => rfl
  | .arr xs => by rw [deepClone, deepCloneL_eq xs]
  | .obj fs => by rw [deepClone, deepCloneO_eq fs]

theorem deepCloneL_eq : ∀ (xs : List JsonValue), deepCloneL xs = xs
  | [] => rfl
  | x :: xs => by rw [deepCloneL, deepClone_eq x, deepCloneL_eq xs]

theorem deepCloneO_eq : ∀ (fs : List (String × JsonValue)), deepCloneO fs = fs
  | [] => rfl
  | (k, v) :: fs => by rw [deepCloneO, deepClone_eq v, deepCloneO_eq fs]

end

theorem objGet_objSet_self (fs : List (String × JsonValue)) (k : String) (v : JsonValue) :
    objGet (objSet fs k v) k = some v := by
  induction fs with
  | nil => simp [objSet, objGet]
  | cons f fs ih =>
      obtain ⟨k', v'⟩ := f
      by_cases h : k' = k <;> simp [objSet, objGet, h, ih]

theorem objGet_objSet_ne (fs : List (String × JsonValue)) (k k' : String) (v : JsonValue)
    (h : k ≠ k') : objGet (objSet fs k v) k' = objGet fs k' := by
  induction fs with
  | nil => simp [objSet, objGet, h]
  | cons f fs ih =>
      obtain ⟨k0, v0⟩ := f
      by_cases h0 : k0 = k <;> simp [objSet, objGet, h0, h, ih]

theorem objSet_map_fst_of_mem (fs : List (String × JsonValue)) (k : String) (v w : JsonValue)
    (h : objGet fs k = some w) : (objSet fs k v).map Prod.fst = fs.map Prod.fst := by
  induction fs with
  | nil => simp [objGet] at h
  | cons f fs ih =>
      obtain ⟨k0, v0⟩ := f
      by_cases h0 : k0 = k
      · subst h0; simp [objSet]
      · simp only [objGet, if_neg h0] at h
        simp [objSet, h0, ih h]

theorem objGet_isSome_iff (fs : List (String × JsonValue)) (k : String) :
    (objGet fs k).isSome ↔ k ∈ fs.map Prod.fst := by
  induction fs with
  | nil => simp [objGet]
  | cons f fs ih =>
      obtain ⟨k0, v0⟩ := f
      by_cases h0 : k0 = k <;> simp [objGet, h0, ih]
      exact fun h => absurd h.symm h0

theorem getAt_append (d : JsonValue) (r r' : Route) :
    getAt d (r ++ r') = (getAt d r).bind (fun x => getAt x r') := by
  induction r generalizing d with
  | nil => simp [getAt]
  | cons s rest ih =>
      cases d <;> cases s <;> simp [getAt]
      case arr.index xs i => cases h : xs[i]? <;> simp [h, ih]
      case obj.key fs k => cases h : objGet fs k <;> simp [h, ih]

theorem getAt_setAt_self (d : JsonValue) (r : Route) (x v : JsonValue)
    (h : getAt d r = some x) : getAt (setAt d r v) r = some v := by
  induction r generalizing d with
  | nil => simp [getAt, setAt]
  | cons s rest ih =>
      cases d <;> cases s <;> simp [getAt] at h
      case arr.index xs i =>
        cases hx : xs[i]? with
        | none => simp [hx] at h
        | some y =>
            have hlt : i < xs.length := (List.getElem?_eq_some_iff.mp hx).1
            simp only [hx] at h
            simp [setAt, hx, getAt, List.getElem?_set_self hlt, ih y h]
      case obj.key fs k =>
        cases hx : objGet fs k with
        | none => simp [hx] at h
        | some y =>
            simp only [hx] at h
            simp [setAt, hx, getAt, objGet_objSet_self, ih y h]

theorem getAt_setAt_ne (d : JsonValue) (r r' : Route) (v : JsonValue)
    (hlen : r.length = r'.length) (hne : r ≠ r') :
    getAt (setAt d r' v) r = getAt d r := by
  induction r generalizing d r' with
  | nil =>
      cases r' with
      | nil => exact absurd rfl hne
      | cons _ _ => simp at hlen
  | cons s rest ih =>
      cases r' with
      | nil => simp at hlen
      | cons s' rest' =>
          simp only [List.length_cons, Nat.add_right_cancel_iff] at hlen
          cases d with
          | arr xs =>
              cases s' with
              | key _ => simp [setAt]
              | index i' =>
                  cases s with
                  | key _ => cases hx : xs[i']? <;> simp [setAt, hx, getAt]
                  | index i =>
                      cases hx : xs[i']? with
                      | none => simp [setAt, hx]
                      | some y =>
                          by_cases hi : i = i'
                          · subst hi
                            have hrr : rest ≠ rest' := by
                              intro hr; exact hne (by rw [hr])
                            simp [setAt, hx, getAt, List.getElem?_set_self
                              ((List.getElem?_eq_some_iff.mp hx).1), ih y rest' hlen hrr, hx]
                          · simp [setAt, hx, getAt, List.getElem?_set_ne (fun h => hi h.symm)]
          | obj fs =>
              cases s' with
              | index _ => simp [setAt]
              | key k' =>
                  cases s with
                  | index _ => cases hx : objGet fs k' <;> simp [setAt, hx, getAt]
                  | key k =>
                      cases hx : objGet fs k' with
                      | none => simp [setAt, hx]
                      | some y =>
                          by_cases hk : k = k'
                          · subst hk
                            have hrr : rest ≠ rest' := by
                              intro hr; exact hne (by rw [hr])
                            simp [setAt, hx, getAt, objGet_objSet_self, ih y rest' hlen hrr]
                          · simp [setAt, hx, getAt, objGet_objSet_ne _ _ _ _ (fun h => hk h.symm)]
          | null => simp [setAt]
          | bool _ => simp [setAt]
          | num _ => simp [setAt]
          | str _ => simp [setAt]

theorem keysDistinct_iff (ks : List String) : keysDistinct ks = true ↔ ks.Nodup := by
  induction ks with
  | nil => simp [keysDistinct]
  | cons k ks ih => simp [keysDistinct, ih, List.contains, List.elem_iff]

theorem wellFormedL_mem (xs : List JsonValue) (x : JsonValue) (hwf : wellFormedL xs = true)
    (hx : x ∈ xs) : wellFormed x = true := by
  induction xs with
  | nil => simp at hx
  | cons y ys ih =>
      simp only [wellFormedL, Bool.and_eq_true] at hwf
      rcases List.mem_cons.mp hx with h | h
      · subst h; exact hwf.1
      · exact ih hwf.2 h

theorem wellFormedO_objGet (fs : List (String × JsonValue)) (k : String) (v : JsonValue)
    (hwf : wellFormedO fs = true) (h : objGet fs k = some v) : wellFormed v = true := by
  induction fs with
  | nil => simp [objGet] at h
  | cons f fs ih =>
      obtain ⟨k0, v0⟩ := f
      simp only [wellFormedO, Bool.and_eq_true] at hwf
      by_cases h0 : k0 = k
      · simp only [objGet, if_pos h0, Option.some.injEq] at h
        subst h; exact hwf.1
      · simp only [objGet, if_neg h0] at h
        exact ih hwf.2 h

theorem wellFormed_getAt (r : Route) (d x : JsonValue) (h : getAt d r = some x)
    (hwf : wellFormed d = true) : wellFormed x = true := by
  induction r generalizing d with
  | nil => simp [getAt] at h; subst h; exact hwf
  | cons s rest ih =>
      cases d <;> cases s <;> simp [getAt] at h
      case arr.index xs i =>
        cases hx : xs[i]? with
        | none => simp [hx] at h
        | some y =>
            simp only [hx] at h
            exact ih y h (wellFormedL_mem xs y (by simpa [wellFormed] using hwf)
              (List.getElem?_mem hx))
      case obj.key fs k =>
        cases hx : objGet fs k with
        | none => simp [hx] at h
        | some y =>
            simp only [hx] at h
            have hwo : wellFormedO fs = true := by
              simp only [wellFormed, Bool.and_eq_true] at hwf
              exact hwf.2
            exact ih y h (wellFormedO_objGet fs k y hwo hx)

theorem resolve_length (d : JsonValue) (p : PathExpr) :
    ∀ r ∈ resolve d p, r.length = depth p := by
  induction p with
  | root => intro r hr; simp [resolve] at hr; subst hr; rfl
  | child p k ih =>
      intro r hr
      simp only [resolve, List.mem_filterMap] at hr
      obtain ⟨a, ha, hm⟩ := hr
      split at hm
      · split at hm
        · simp only [Option.some.injEq] at hm
          subst hm; simp [depth, ih a ha]
        · simp at hm
      · simp at hm
  | index p i ih =>
      intro r hr
      simp only [resolve, List.mem_filterMap] at hr
      obtain ⟨a, ha, hm⟩ := hr
      split at hm
      · split at hm
        · simp only [Option.some.injEq] at hm
          subst hm; simp [depth, ih a ha]
        · simp at hm
      · simp at hm
  | wildcard p ih =>
      intro r hr
      simp only [resolve, List.mem_flatMap] at hr
      obtain ⟨a, ha, hm⟩ := hr
      split at hm
      · simp only [List.mem_map, List.mem_range] at hm
        obtain ⟨i, _, hi⟩ := hm
        subst hi; simp [depth, ih a ha]
      · simp only [List.mem_map] at hm
        obtain ⟨kv, _, hkv⟩ := hm
        subst hkv; simp [depth, ih a ha]
      · simp at hm
  | filterEq p k v ih =>
      intro r hr
      simp only [resolve, List.mem_flatMap] at hr
      obtain ⟨a, ha, hm⟩ := hr
      split at hm
      · simp only [List.mem_filterMap, List.mem_range] at hm
        obtain ⟨i, _, hi⟩ := hm
        split at hi
        · split at hi
          · simp only [Option.some.injEq] at hi
            subst hi; simp [depth, ih a ha]
          · simp at hi
        · simp at hi
      · simp at hm

theorem resolve_valid (d : JsonValue) (p : PathExpr) :
    ∀ r ∈ resolve d p, (getAt d r).isSome := by
  induction p with
  | root => intro r hr; simp [resolve] at hr; subst hr; simp [getAt]
  | child p k ih =>
      intro r hr
      simp only [resolve, List.mem_filterMap] at hr
      obtain ⟨a, ha, hm⟩ := hr
      split at hm
      case h_1 fs hga =>
        split at hm
        case h_1 x ho =>
          simp only [Option.some.injEq] at hm
          subst hm
          simp [getAt_append, hga, getAt, ho]
        case h_2 => simp at hm
      case h_2 => simp at hm
  | index p i ih =>
      intro r hr
      simp only [resolve, List.mem_filterMap] at hr
      obtain ⟨a, ha, hm⟩ := hr
      split at hm
      case h_1 xs hga =>
        split at hm
        case isTrue hlt =>
          simp only [Option.some.injEq] at hm
          subst hm
          cases hx : xs[i]? with
          | none => simp [List.getElem?_eq_none_iff] at hx; omega
          | some y => simp [getAt_append, hga, getAt, hx]
        case isFalse => simp at hm
      case h_2 => simp at hm
  | wildcard p ih =>
      intro r hr
      simp only [resolve, List.mem_flatMap] at hr
      obtain ⟨a, ha, hm⟩ := hr
      split at hm
      case h_1 xs hga =>
        simp only [List.mem_map, List.mem_range] at hm
        obtain ⟨i, hilt, hi⟩ := hm
        subst hi
        cases hx : xs[i]? with
        | none => simp [List.getElem?_eq_none_iff] at hx; omega
        | some y => simp [getAt_append, hga, getAt, hx]
      case h_2 fs hga =>
        simp only [List.mem_map] at hm
        obtain ⟨kv, hkv, hkveq⟩ := hm
        subst hkveq
        have : kv.1 ∈ fs.map Prod.fst := List.mem_map_of_mem Prod.fst hkv
        have hso := (objGet_isSome_iff fs kv.1).mpr this
        cases ho : objGet fs kv.1 with
        | none => simp [ho] at hso
        | some y => simp [getAt_append, hga, getAt, ho]
      case h_3 => simp at hm
  | filterEq p k v ih =>
      intro r hr
      simp only [resolve, List.mem_flatMap] at hr
      obtain ⟨a, ha, hm⟩ := hr
      split at hm
      case h_1 xs hga =>
        simp only [List.mem_filterMap, List.mem_range] at hm
        obtain ⟨i, hilt, hi⟩ := hm
        split at hi
        case h_1 x hx =>
          split at hi
          · simp only [Option.some.injEq] at hi
            subst hi
            simp [getAt_append, hga, getAt, hx]
          · simp at hi
        case h_2 => simp at hi
      case h_2 => simp at hm

theorem routeSnoc_inj (a a' : Route) (s s' : PathStep) (h : a ++ [s] = a' ++ [s']) :
    a = a' ∧ s = s' := by
  obtain ⟨h1, h2⟩ := List.append_inj' h rfl
  exact ⟨h1, by simpa using h2⟩

theorem resolve_nodup (d : JsonValue) (p : PathExpr) (hwf : wellFormed d = true) :
    (resolve d p).Nodup := by
  induction p with
  | root => simp [resolve]
  | child p k ih =>
      simp only [resolve]
      refine List.Nodup.filterMap ?_ ih
      intro a a' b hb hb'
      split at hb
      · split at hb
        · simp only [Option.mem_def, Option.some.injEq] at hb
          split at hb'
          · split at hb'
            · simp only [Option.mem_def, Option.some.injEq] at hb'
              subst hb
              exact (routeSnoc_inj a a' _ _ hb'.symm).1
            · simp at hb'
          · simp at hb'
        · simp at hb
      · simp at hb
  | index p i ih =>
      simp only [resolve]
      refine List.Nodup.filterMap ?_ ih
      intro a a' b hb hb'
      split at hb
      · split at hb
        · simp only [Option.mem_def, Option.some.injEq] at hb
          split at hb'
          · split at hb'
            · simp only [Option.mem_def, Option.some.injEq] at hb'
              subst hb
              exact (routeSnoc_inj a a' _ _ hb'.symm).1
            · simp at hb'
          · simp at hb'
        · simp at hb
      · simp at hb
  | wildcard p ih =>
      simp only [resolve]
      rw [List.nodup_flatMap]
      constructor
      · intro a ha
        split
        · exact List.Nodup.map
            (fun i j hij => (PathStep.index.inj (routeSnoc_inj a a _ _ hij).2))
            (List.nodup_range _)
        case h_2 fs hga =>
          have hmap : fs.map (fun kv => a ++ [PathStep.key kv.1])
              = (fs.map Prod.fst).map (fun k => a ++ [PathStep.key k]) := by
            rw [List.map_map]; rfl
          rw [hmap]
          refine List.Nodup.map
            (fun k1 k2 hk => (PathStep.key.inj (routeSnoc_inj a a _ _ hk).2)) ?_
          have hwfx := wellFormed_getAt a d _ hga hwf
          simp only [wellFormed, Bool.and_eq_true] at hwfx
          exact (keysDistinct_iff _).mp hwfx.1
        · simp
      · refine List.Pairwise.imp_of_mem ?_ ih
        intro a a' ha ha' hne b hb hb'
        dsimp only at hb hb'
        have hsnoc : ∃ s, b = a ++ [s] := by
          split at hb
          · obtain ⟨i, _, hi⟩ := List.mem_map.mp hb
            exact ⟨_, hi.symm⟩
          · obtain ⟨kv, _, hkv⟩ := List.mem_map.mp hb
            exact ⟨_, hkv.symm⟩
          · simp at hb
        have hsnoc' : ∃ s, b = a' ++ [s] := by
          split at hb'
          · obtain ⟨i, _, hi⟩ := List.mem_map.mp hb'
            exact ⟨_, hi.symm⟩
          · obtain ⟨kv, _, hkv⟩ := List.mem_map.mp hb'
            exact ⟨_, hkv.symm⟩
          · simp at hb'
        obtain ⟨s, hs⟩ := hsnoc
        obtain ⟨s', hs'⟩ := hsnoc'
        exact hne (routeSnoc_inj a a' s s' (hs ▸ hs' ▸ rfl)).1
  | filterEq p k v ih =>
      simp only [resolve]
      rw [List.nodup_flatMap]
      constructor
      · intro a ha
        split
        · refine List.Nodup.filterMap ?_ (List.nodup_range _)
          intro i i' b hb hb'
          split at hb
          · split at hb
            · simp only [Option.mem_def, Option.some.injEq] at hb
              split at hb'
              · split at hb'
                · simp only [Option.mem_def, Option.some.injEq] at hb'
                  subst hb
                  exact PathStep.index.inj (routeSnoc_inj a a _ _ hb'.symm).2
                · simp at hb'
              · simp at hb'
            · simp at hb
          · simp at hb
        · simp
      · refine List.Pairwise.imp_of_mem ?_ ih
        intro a a' ha ha' hne b hb hb'
        dsimp only at hb hb'
        have hsnoc : ∃ s, b = a ++ [s] := by
          split at hb
          · obtain ⟨i, _, hi⟩ := List.mem_filterMap.mp hb
            split at hi
            · split at hi
              · simp only [Option.some.injEq] at hi
                exact ⟨_, hi.symm⟩
              · simp at hi
            · simp at hi
          · simp at hb
        have hsnoc' : ∃ s, b = a' ++ [s] := by
          split at hb'
          · obtain ⟨i, _, hi⟩ := List.mem_filterMap.mp hb'
            split at hi
            · split at hi
              · simp only [Option.some.injEq] at hi
                exact ⟨_, hi.symm⟩
              · simp at hi
            · simp at hi
          · simp at hb'
        obtain ⟨s, hs⟩ := hsnoc
        obtain ⟨s', hs'⟩ := hsnoc'
        exact hne (routeSnoc_inj a a' s s' (hs ▸ hs' ▸ rfl)).1

theorem sFold_getAt_notMem (v : JsonValue) (R : List Route) :
    ∀ (doc : JsonValue) (r : Route), (∀ r' ∈ R, r'.length = r.length) → r ∉ R →
    getAt (sFold v R doc) r = getAt doc r := by
  induction R with
  | nil => intro doc r _ _; rfl
  | cons r0 rs ih =>
      intro doc r hlen hmem
      have hmem' : r ∉ rs := fun h => hmem (List.mem_cons_of_mem _ h)
      have hlen' : ∀ r' ∈ rs, r'.length = r.length :=
        fun r' h => hlen r' (List.mem_cons_of_mem _ h)
      cases r0 with
      | nil => exact ih doc r hlen' hmem'
      | cons s t =>
          rw [sFold, ih _ r hlen' hmem']
          exact getAt_setAt_ne doc r (s :: t) v
            (hlen (s :: t) (List.mem_cons_self _ _)).symm
            (fun h => hmem (h ▸ List.mem_cons_self _ _))

theorem sFold_getAt_mem (v : JsonValue) (R : List Route) :
    ∀ (doc : JsonValue) (r : Route), R.Nodup → (∀ r' ∈ R, r'.length = r.length) →
    r ∈ R → r ≠ [] → (getAt doc r).isSome → getAt (sFold v R doc) r = some v := by
  induction R with
  | nil => intro doc r _ _ hmem _ _; simp at hmem
  | cons r0 rs ih =>
      intro doc r hnd hlen hmem hne hval
      have hnd' := (List.nodup_cons.mp hnd).2
      have hlen' : ∀ r' ∈ rs, r'.length = r.length :=
        fun r' h => hlen r' (List.mem_cons_of_mem _ h)
      rcases List.mem_cons.mp hmem with heq | hmemtl
      · subst heq
        cases r with
        | nil => exact absurd rfl hne
        | cons s t =>
            rw [sFold]
            obtain ⟨x, hx⟩ := Option.isSome_iff_exists.mp hval
            rw [sFold_getAt_notMem v rs _ _ hlen' (List.nodup_cons.mp hnd).1]
            exact getAt_setAt_self doc (s :: t) x v hx
      · cases r0 with
        | nil => exact ih doc r hnd' hlen' hmemtl hne hval
        | cons s t =>
            rw [sFold]
            have hne0 : r ≠ s :: t := by
              intro h; subst h; exact (List.nodup_cons.mp hnd).1 hmemtl
            have hpres : getAt (setAt doc (s :: t) v) r = getAt doc r :=
              getAt_setAt_ne doc r (s :: t) v (hlen (s :: t) (List.mem_cons_self _ _)).symm hne0
            exact ih _ r hnd' hlen' hmemtl hne (by rw [hpres]; exact hval)

theorem aFold_ok_getAt_notMem (v : JsonValue) (R : List Route) :
    ∀ (doc doc' : JsonValue) (r : Route), aFold v R doc = Except.ok doc' →
    (∀ r' ∈ R, r'.length = r.length) → r ∉ R →
    getAt doc' r = getAt doc r := by
  induction R with
  | nil => intro doc doc' r hok _ _; simp [aFold] at hok; rw [hok]
  | cons r0 rs ih =>
      intro doc doc' r hok hlen hmem
      rw [aFold] at hok
      split at hok
      case h_1 xs h0 =>
        have hmem' : r ∉ rs := fun h => hmem (List.mem_cons_of_mem _ h)
        have hlen' : ∀ r' ∈ rs, r'.length = r.length :=
          fun r' h => hlen r' (List.mem_cons_of_mem _ h)
        rw [ih _ doc' r hok hlen' hmem']
        exact getAt_setAt_ne doc r r0 _ (hlen r0 (List.mem_cons_self _ _)).symm
          (fun h => hmem (h ▸ List.mem_cons_self _ _))
      case h_2 => simp at hok

theorem aFold_ok_of_allArr (v : JsonValue) (R : List Route) :
    ∀ (doc : JsonValue), R.Nodup → (∀ r' ∈ R, ∀ r'' ∈ R, r'.length = r''.length) →
    (∀ r' ∈ R, ∃ xs, getAt doc r' = some (.arr xs)) →
    ∃ doc', aFold v R doc = Except.ok doc' ∧
      ∀ r' ∈ R, ∀ xs, getAt doc r' = some (.arr xs) → getAt doc' r' = some (.arr (xs ++ [v])) := by
  induction R with
  | nil => intro doc _ _ _; exact ⟨doc, rfl, by simp⟩
  | cons r0 rs ih =>
      intro doc hnd hlen harr
      obtain ⟨xs0, hxs0⟩ := harr r0 (List.mem_cons_self _ _)
      have hnotmem : r0 ∉ rs := (List.nodup_cons.mp hnd).1
      have hnd' := (List.nodup_cons.mp hnd).2
      have hlen' : ∀ r' ∈ rs, ∀ r'' ∈ rs, r'.length = r''.length :=
        fun r' h r'' h' => hlen r' (List.mem_cons_of_mem _ h) r'' (List.mem_cons_of_mem _ h')
      have hpres : ∀ r' ∈ rs, getAt (setAt doc r0 (.arr (xs0 ++ [v]))) r' = getAt doc r' := by
        intro r' h
        refine getAt_setAt_ne doc r' r0 _
          (hlen r0 (List.mem_cons_self _ _) r' (List.mem_cons_of_mem _ h)).symm ?_
        intro hcontra; subst hcontra; exact hnotmem h
      obtain ⟨doc', hok, hprop⟩ := ih (setAt doc r0 (.arr (xs0 ++ [v]))) hnd' hlen'
        (fun r' h => by rw [hpres r' h]; exact harr r' (List.mem_cons_of_mem _ h))
      refine ⟨doc', ?_, ?_⟩
      · rw [aFold, hxs0]; exact hok
      · intro r' hr' xs hxs
        rcases List.mem_cons.mp hr' with heq | hmemtl
        · subst heq
          rw [hxs0] at hxs
          obtain rfl : xs0 = xs := by simpa using hxs
          rw [aFold_ok_getAt_notMem v rs _ doc' r' hok
            (fun r'' h => hlen r'' (List.mem_cons_of_mem _ h) r' (List.mem_cons_self _ _)) hnotmem]
          exact getAt_setAt_self doc r' _ _ hxs0
        · exact hprop r' hmemtl xs (by rw [hpres r' hmemtl]; exact hxs)

theorem aFold_error_of_nonArr (v : JsonValue) (R : List Route) :
    ∀ (doc : JsonValue) (r : Route) (x : JsonValue), R.Nodup →
    (∀ r' ∈ R, ∀ r'' ∈ R, r'.length = r''.length) →
    r ∈ R → getAt doc r = some x → isArr x = false →
    aFold v R doc = Except.error "Path must point to array(s) to append into" := by
  induction R with
  | nil => intro doc r x _ _ hmem _ _; simp at hmem
  | cons r0 rs ih =>
      intro doc r x hnd hlen hmem hx hnarr
      rw [aFold]
      cases h0 : getAt doc r0 with
      | none => rfl
      | some y =>
          cases y with
          | arr xs0 =>
              have hne0 : r ≠ r0 := by
                intro h; subst h; rw [hx] at h0
                obtain rfl : x = JsonValue.arr xs0 := by simpa using h0
                simp [isArr] at hnarr
              have hmemtl : r ∈ rs := by
                rcases List.mem_cons.mp hmem with heq | h
                · exact absurd heq hne0
                · exact h
              have hnd' := (List.nodup_cons.mp hnd).2
              have hlen' : ∀ r' ∈ rs, ∀ r'' ∈ rs, r'.length = r''.length :=
                fun r' h r'' h' =>
                  hlen r' (List.mem_cons_of_mem _ h) r'' (List.mem_cons_of_mem _ h')
              have hpres : getAt (setAt doc r0 (.arr (xs0 ++ [v]))) r = getAt doc r :=
                getAt_setAt_ne doc r r0 _
                  (hlen r0 (List.mem_cons_self _ _) r (List.mem_cons_of_mem _ hmemtl)).symm hne0
              exact ih _ r x hnd' hlen' hmemtl (by rw [hpres]; exact hx) hnarr
          | null => rfl
          | bool _ => rfl
          | num _ => rfl
          | str _ => rfl
          | obj _ => rfl

theorem foldl_eraseIdx_map_succ {α : Type} (l : List Nat) :
    ∀ (y : α) (ys : List α),
    (l.map (fun i => i + 1)).foldl (fun zs i => zs.eraseIdx i) (y :: ys)
      = y :: l.foldl (fun zs i => zs.eraseIdx i) ys := by
  induction l with
  | nil => intro y ys; rfl
  | cons i l ih =>
      intro y ys
      simp only [List.map_cons, List.foldl_cons, List.eraseIdx_cons_succ]
      exact ih y _

theorem foldl_eraseIdx_matchIdx (pred : JsonValue → Bool) (xs : List JsonValue) :
    ((matchIdx pred xs).reverse).foldl (fun zs i => zs.eraseIdx i) xs
      = xs.filter (fun x => !pred x) := by
  induction xs with
  | nil => rfl
  | cons x xs ih =>
      by_cases hp : pred x
      · simp only [matchIdx, if_pos hp, List.reverse_append, List.reverse_cons,
          List.reverse_nil, List.nil_append, List.foldl_append]
        rw [← List.map_reverse, foldl_eraseIdx_map_succ, ih]
        simp [List.filter_cons, hp]
      · simp only [matchIdx, if_neg hp, List.nil_append]
        rw [← List.map_reverse, foldl_eraseIdx_map_succ, ih]
        simp [List.filter_cons, hp]

theorem rangeFilterMap_matchIdx (pred : JsonValue → Bool) (xs : List JsonValue) :
    ∀ (f : Nat → Route),
    (List.range xs.length).filterMap (fun i =>
        match xs[i]? with
        | some x => if pred x then some (f i) else none
        | none => none)
      = (matchIdx pred xs).map f := by
  induction xs with
  | nil => intro f; rfl
  | cons x xs ih =>
      intro f
      rw [List.length_cons, List.range_succ_eq_map, List.filterMap_cons, List.filterMap_map]
      have hcomp : ((fun i =>
          match (x :: xs)[i]? with
          | some y => if pred y then some (f i) else none
          | none => none) ∘ Nat.succ)
          = (fun i =>
          match xs[i]? with
          | some y => if pred y then some ((f ∘ Nat.succ) i) else none
          | none => none) := by
        funext i
        simp [Function.comp]
      rw [hcomp, ih (f ∘ Nat.succ)]
      by_cases hp : pred x
      · simp [matchIdx, hp, List.map_map]
      · simp [matchIdx, hp, List.map_map]

theorem dFold_map_key_cons (a : String) (rs : List Route) :
    ∀ (d0 : JsonValue), (∀ r ∈ rs, r ≠ []) →
    dFold (rs.map (fun r => PathStep.key a :: r)) (JsonValue.obj [(a, d0)])
      = JsonValue.obj [(a, dFold rs d0)] := by
  induction rs with
  | nil => intro d0 _; rfl
  | cons r rs ih =>
      intro d0 h
      have hr := h r (List.mem_cons_self _ _)
      cases r with
      | nil => exact absurd rfl hr
      | cons s t =>
          simp only [List.map_cons]
          rw [dFold]
          have hstep : deleteAt (JsonValue.obj [(a, d0)]) (PathStep.key a :: s :: t)
              = JsonValue.obj [(a, deleteAt d0 (s :: t))] := by
            simp [deleteAt, objGet, objSet]
          rw [hstep]
          exact ih _ (fun r' h' => h r' (List.mem_cons_of_mem _ h'))

theorem dFold_map_index_singleton (l : List Nat) :
    ∀ (xs : List JsonValue),
    dFold (l.map (fun i => [PathStep.index i])) (JsonValue.arr xs)
      = JsonValue.arr (l.foldl (fun zs i => zs.eraseIdx i) xs) := by
  induction l with
  | nil => intro xs; rfl
  | cons i l ih =>
      intro xs
      simp only [List.map_cons, List.foldl_cons]
      rw [dFold]
      have hstep : deleteAt (JsonValue.arr xs) [PathStep.index i]
          = JsonValue.arr (xs.eraseIdx i) := rfl
      rw [hstep]
      exact ih _

theorem resolve_store_book_filterEq (xs : List JsonValue) (k : String) (v : JsonValue) :
    resolve (JsonValue.obj [("store", .obj [("book", .arr xs)])])
      (.filterEq (.child (.child .root "store") "book") k v)
      = (matchIdx (filterPred k v) xs).map
          (fun i => [PathStep.key "store", PathStep.key "book", PathStep.index i]) := by
  have h1 : resolve (JsonValue.obj [("store", .obj [("book", .arr xs)])])
      (.child (.child .root "store") "book") = [[PathStep.key "store", PathStep.key "book"]] := by
    simp [resolve, getAt, objGet]
  rw [resolve, h1]
  simp only [List.flatMap_cons, List.flatMap_nil, List.append_nil]
  have h2 : getAt (JsonValue.obj [("store", .obj [("book", .arr xs)])])
      [PathStep.key "store", PathStep.key "book"] = some (.arr xs) := by
    simp [getAt, objGet]
  rw [h2]
  exact rangeFilterMap_matchIdx (filterPred k v) xs _

theorem deleteCore_store_book_filterEq (xs : List JsonValue) (k : String) (v : JsonValue) :
    deleteCore (JsonValue.obj [("store", .obj [("book", .arr xs)])])
      (.filterEq (.child (.child .root "store") "book") k v)
      = JsonValue.obj [("store", .obj [("book",
          .arr (xs.filter (fun x => !filterPred k v x)))])] := by
  rw [deleteCore, deepClone_eq, resolve_store_book_filterEq]
  rw [← List.map_reverse]
  have hshape : ((matchIdx (filterPred k v) xs).reverse).map
      (fun i => [PathStep.key "store", PathStep.key "book", PathStep.index i])
      = (((matchIdx (filterPred k v) xs).reverse).map
          (fun i => [PathStep.key "book", PathStep.index i])).map
            (fun r => PathStep.key "store" :: r) := by
    rw [List.map_map]; rfl
  rw [hshape, dFold_map_key_cons]
  · have hshape2 : ((matchIdx (filterPred k v) xs).reverse).map
        (fun i => [PathStep.key "book", PathStep.index i])
        = (((matchIdx (filterPred k v) xs).reverse).map
            (fun i => [PathStep.index i])).map (fun r => PathStep.key "book" :: r) := by
      rw [List.map_map]; rfl
    rw [hshape2, dFold_map_key_cons]
    · rw [dFold_map_index_singleton, foldl_eraseIdx_matchIdx]
    · intro r hr
      obtain ⟨i, _, hi⟩ := List.mem_map.mp hr
      subst hi; simp
  · intro r hr
    obtain ⟨r', _, hr'⟩ := List.mem_map.mp hr
    subst hr'; simp

theorem sameTopShape_refl (a : JsonValue) : sameTopShape a a := by
  cases a <;> simp [sameTopShape]

theorem sameTopShapeO_refl (o : Option JsonValue) : sameTopShapeO o o := by
  cases o <;> simp [sameTopShapeO, sameTopShape_refl]

theorem objGet_isSome_congr (fs gs : List (String × JsonValue))
    (h : fs.map Prod.fst = gs.map Prod.fst) (k : String) :
    (objGet fs k).isSome = (objGet gs k).isSome := by
  by_cases hm : k ∈ fs.map Prod.fst
  · rw [(objGet_isSome_iff fs k).mpr hm, (objGet_isSome_iff gs k).mpr (h ▸ hm)]
  · have hm' : k ∉ gs.map Prod.fst := h ▸ hm
    rw [Bool.eq_iff_iff]
    simp [objGet_isSome_iff, hm, hm']

theorem getAt_setAt_shape (v : JsonValue) : ∀ (s r : Route) (d x : JsonValue),
    getAt d r = some x → s.length < r.length →
    sameTopShapeO (getAt (setAt d r v) s) (getAt d s) := by
  intro s
  induction s with
  | nil =>
      intro r d x hv hlt
      cases r with
      | nil => simp at hlt
      | cons s0 t =>
          cases d with
          | arr xs =>
              cases s0 with
              | index i =>
                  cases hx : xs[i]? with
                  | none => simp [setAt, hx, getAt, sameTopShapeO, sameTopShape_refl]
                  | some y => simp [setAt, hx, getAt, sameTopShapeO, sameTopShape]
              | key k => simp [setAt, getAt, sameTopShapeO, sameTopShape_refl]
          | obj fs =>
              cases s0 with
              | key k =>
                  cases hx : objGet fs k with
                  | none => simp [setAt, hx, getAt, sameTopShapeO, sameTopShape_refl]
                  | some y =>
                      simp only [setAt, hx, getAt, sameTopShapeO, sameTopShape]
                      exact objSet_map_fst_of_mem fs k _ y hx
              | index i => simp [setAt, getAt, sameTopShapeO, sameTopShape_refl]
          | null => simp [setAt, getAt, sameTopShapeO, sameTopShape_refl]
          | bool _ => simp [setAt, getAt, sameTopShapeO, sameTopShape_refl]
          | num _ => simp [setAt, getAt, sameTopShapeO, sameTopShape_refl]
          | str _ => simp [setAt, getAt, sameTopShapeO, sameTopShape_refl]
  | cons s1 s' ih =>
      intro r d x hv hlt
      cases r with
      | nil => simp at hlt
      | cons r1 t =>
          cases d with
          | arr xs =>
              cases r1 with
              | key _ => simp [setAt, sameTopShapeO_refl]
              | index i =>
                  cases hx : xs[i]? with
                  | none => simp [setAt, hx, sameTopShapeO_refl]
                  | some y =>
                      simp only [getAt, hx] at hv
                      cases s1 with
                      | key _ => simp [setAt, hx, getAt, sameTopShapeO]
                      | index j =>
                          by_cases hij : j = i
                          · subst hij
                            have hjlt : j < xs.length := (List.getElem?_eq_some_iff.mp hx).1
                            simp only [setAt, hx, getAt,
                              List.getElem?_set_self hjlt]
                            exact ih t y x hv (by simpa using hlt)
                          · simp only [setAt, hx, getAt, List.getElem?_set_ne
                              (fun h => hij h.symm)]
                            exact sameTopShapeO_refl _
          | obj fs =>
              cases r1 with
              | index _ => simp [setAt, sameTopShapeO_refl]
              | key k =>
                  cases hx : objGet fs k with
                  | none => simp [setAt, hx, sameTopShapeO_refl]
                  | some y =>
                      simp only [getAt, hx] at hv
                      cases s1 with
                      | index _ => simp [setAt, hx, getAt, sameTopShapeO]
                      | key k' =>
                          by_cases hkk : k' = k
                          · subst hkk
                            simp only [setAt, hx, getAt, objGet_objSet_self]
                            exact ih t y x hv (by simpa using hlt)
                          · simp only [setAt, hx, getAt,
                              objGet_objSet_ne fs k k' _ (fun h => hkk h.symm)]
                            exact sameTopShapeO_refl _
          | null => simp [setAt, sameTopShapeO_refl]
          | bool _ => simp [setAt, sameTopShapeO_refl]
          | num _ => simp [setAt, sameTopShapeO_refl]
          | str _ => simp [setAt, sameTopShapeO_refl]

theorem resolve_setAt (v : JsonValue) (p : PathExpr) :
    ∀ (d : JsonValue) (r : Route) (x : JsonValue),
    filterFree p = true → getAt d r = some x → depth p ≤ r.length →
    resolve (setAt d r v) p = resolve d p := by
  induction p with
  | root => intros; rfl
  | child p k ih =>
      intro d r x hff hv hdep
      simp only [resolve]
      rw [ih d r x (by simpa [filterFree] using hff) hv
        (Nat.le_of_succ_le hdep)]
      refine List.filterMap_congr ?_
      intro a ha
      have hlt : a.length < r.length := by
        rw [resolve_length d p a ha]
        exact Nat.lt_of_lt_of_le (Nat.lt_succ_self _) hdep
      have hshape := getAt_setAt_shape v a r d x hv hlt
      cases hga : getAt d a with
      | none =>
          cases hga' : getAt (setAt d r v) a with
          | none => rfl
          | some y => rw [hga, hga'] at hshape; simp [sameTopShapeO] at hshape
      | some y =>
          cases hga' : getAt (setAt d r v) a with
          | none => rw [hga, hga'] at hshape; simp [sameTopShapeO] at hshape
          | some y' =>
              rw [hga, hga'] at hshape
              simp only [sameTopShapeO] at hshape
              cases y <;> cases y' <;> simp [sameTopShape] at hshape <;> try rfl
              case obj.obj fs fs' =>
                have hcong := objGet_isSome_congr fs' fs hshape k
                cases ho : objGet fs k with
                | none =>
                    cases ho' : objGet fs' k with
                    | none => simp [ho, ho']
                    | some w => rw [ho, ho'] at hcong; simp at hcong
                | some w =>
                    cases ho' : objGet fs' k with
                    | none => rw [ho, ho'] at hcong; simp at hcong
                    | some w' => simp [ho, ho']
  | index p i ih =>
      intro d r x hff hv hdep
      simp only [resolve]
      rw [ih d r x (by simpa [filterFree] using hff) hv (Nat.le_of_succ_le hdep)]
      refine List.filterMap_congr ?_
      intro a ha
      have hlt : a.length < r.length := by
        rw [resolve_length d p a ha]
        exact Nat.lt_of_lt_of_le (Nat.lt_succ_self _) hdep
      have hshape := getAt_setAt_shape v a r d x hv hlt
      cases hga : getAt d a with
      | none =>
          cases hga' : getAt (setAt d r v) a with
          | none => rfl
          | some y => rw [hga, hga'] at hshape; simp [sameTopShapeO] at hshape
      | some y =>
          cases hga' : getAt (setAt d r v) a with
          | none => rw [hga, hga'] at hshape; simp [sameTopShapeO] at hshape
          | some y' =>
              rw [hga, hga'] at hshape
              simp only [sameTopShapeO] at hshape
              cases y <;> cases y' <;> simp [sameTopShape] at hshape <;> try rfl
              case arr.arr xs xs' => simp [hshape]
  | wildcard p ih =>
      intro d r x hff hv hdep
      simp only [resolve]
      rw [ih d r x (by simpa [filterFree] using hff) hv (Nat.le_of_succ_le hdep)]
      refine List.flatMap_congr ?_
      intro a ha
      have hlt : a.length < r.length := by
        rw [resolve_length d p a ha]
        exact Nat.lt_of_lt_of_le (Nat.lt_succ_self _) hdep
      have hshape := getAt_setAt_shape v a r d x hv hlt
      cases hga : getAt d a with
      | none =>
          cases hga' : getAt (setAt d r v) a with
          | none => rfl
          | some y => rw [hga, hga'] at hshape; simp [sameTopShapeO] at hshape
      | some y =>
          cases hga' : getAt (setAt d r v) a with
          | none => rw [hga, hga'] at hshape; simp [sameTopShapeO] at hshape
          | some y' =>
              rw [hga, hga'] at hshape
              simp only [sameTopShapeO] at hshape
              cases y <;> cases y' <;> simp [sameTopShape] at hshape <;> try rfl
              case arr.arr xs xs' => simp [hshape]
              case obj.obj fs fs' =>
                have h1 : fs'.map (fun kv => a ++ [PathStep.key kv.1])
                    = (fs'.map Prod.fst).map (fun k0 => a ++ [PathStep.key k0]) := by
                  rw [List.map_map]; rfl
                have h2 : fs.map (fun kv => a ++ [PathStep.key kv.1])
                    = (fs.map Prod.fst).map (fun k0 => a ++ [PathStep.key k0]) := by
                  rw [List.map_map]; rfl
                show fs'.map (fun kv => a ++ [PathStep.key kv.1])
                    = fs.map (fun kv => a ++ [PathStep.key kv.1])
                rw [h1, h2, hshape]
  | filterEq p k v0 ih =>
      intro d r x hff hv hdep
      simp [filterFree] at hff

-- ## Claim theorems

/-- C1: every mutation operation (replace, append, set, delete) deep-clones
the input document first and computes only on the clone; the clone is
structurally identical to the input, so the caller's document is never
modified and the returned tree is built independently of it. -/
theorem claim_C1_non_mutation (d : JsonValue) (path : String) (v : JsonValue) :
    deepClone d = d
    ∧ replaceAtPath d path v = replaceAtPath (deepClone d) path v
    ∧ appendToArrayAtPath d path v = appendToArrayAtPath (deepClone d) path v
    ∧ (∀ all, setAtPath d path v all = setAtPath (deepClone d) path v all)
    ∧ deleteAtPath d path = deleteAtPath (deepClone d) path := by
  refine ⟨deepClone_eq d, ?_, ?_, ?_, ?_⟩ <;> simp [deepClone_eq]

/-- C2: deleteAtPath applies removals in reverse of resolution order, i.e. in
descending index order within the affected array, so every pending index is
still valid: deleting by category filter removes exactly the matching books
for any book list, and on the spec's example document exactly one book, the
reference one, remains. -/
theorem claim_C2_delete_descending (xs : List JsonValue) (v : JsonValue) :
    deleteCore (JsonValue.obj [("store", .obj [("book", .arr xs)])])
      (.filterEq (.child (.child .root "store") "book") "category" v)
      = JsonValue.obj [("store", .obj [("book",
          .arr (xs.filter (fun x => !filterPred "category" v x)))])]
    ∧ deleteAtPath
        (JsonValue.obj [("store", .obj [("book",
          .arr [.obj [("category", .str "reference")],
                .obj [("category", .str "fiction")],
                .obj [("category", .str "fiction")]])])])
        "$.store.book[?(@.category=='fiction')]"
      = Except.ok (JsonValue.obj [("store", .obj [("book",
          .arr [.obj [("category", .str "reference")]])])]) := by
  exact ⟨deleteCore_store_book_filterEq xs "category" v, by rfl⟩

/-- C10: a path that resolves to the document root yields a location record
with no parent; deleteAtPath's parent guard silently skips it, so the call
succeeds and returns a document equal to the input. -/
theorem claim_C10_delete_root_noop (d : JsonValue) (s : String) (p : PathExpr)
    (hp : parsePath s = some p) (hr : resolve d p = [[]]) :
    deleteAtPath d s = Except.ok d := by
  simp only [deleteAtPath, hp, deleteCore, deepClone_eq, hr]
  cases d <;> rfl

/-- Witness for C10 at the concrete input `$` on the document `1`. -/
theorem claim_C10_delete_root_noop_witness :
    parsePath "$" = some PathExpr.root
    ∧ resolve (JsonValue.num 1) PathExpr.root = [[]]
    ∧ deleteAtPath (JsonValue.num 1) "$" = Except.ok (JsonValue.num 1) :=
  ⟨rfl, rfl, claim_C10_delete_root_noop (JsonValue.num 1) "$" PathExpr.root rfl rfl⟩

/-- C4 counterexample: a path resolving to the whole document does NOT
replace the document — the root record has no parent and the guard skips it,
so `replaceAtPath 1 "$" 2` returns the unchanged document `1`, not `2`. -/
theorem claim_C4_counterexample :
    replaceAtPath (JsonValue.num 1) "$" (JsonValue.num 2) = Except.ok (JsonValue.num 1)
    ∧ Except.ok (JsonValue.num 1) ≠ (Except.ok (JsonValue.num 2) : Except String JsonValue) := by
  refine ⟨by rfl, ?_⟩
  intro h
  simp at h

/-- C4 (amended): replaceAtPath overwrites parent[key] with v at every
resolved location that has a parent; a location with no parent (the match is
the whole document) is skipped by the guard rather than replacing the
document; zero matches is not an error and the clone is returned unchanged. -/
theorem claim_C4_replace_amended (d : JsonValue) (s : String) (p : PathExpr) (v : JsonValue)
    (hp : parsePath s = some p) (hwf : wellFormed d = true) :
    replaceAtPath d s v = Except.ok (replaceCore d p v)
    ∧ (∀ r ∈ resolve d p, r ≠ [] → getAt (replaceCore d p v) r = some v)
    ∧ (resolve d p = [] → replaceCore d p v = d)
    ∧ (resolve d p = [[]] → replaceCore d p v = d) := by
  refine ⟨by simp only [replaceAtPath, hp], ?_, ?_, ?_⟩
  · intro r hr hne
    rw [replaceCore, deepClone_eq]
    exact sFold_getAt_mem v (resolve d p) d r (resolve_nodup d p hwf)
      (fun r' h' => by rw [resolve_length d p r' h', resolve_length d p r hr])
      hr hne (resolve_valid d p r hr)
  · intro h
    rw [replaceCore, deepClone_eq, h]
    rfl
  · intro h
    rw [replaceCore, deepClone_eq, h]
    rfl

/-- Witness for the amended C4 on a two-match wildcard path. -/
theorem claim_C4_replace_amended_witness :
    replaceAtPath (JsonValue.obj [("items", .arr [.num 1, .num 2])]) "$.items[*]" (.num 9)
      = Except.ok (replaceCore (JsonValue.obj [("items", .arr [.num 1, .num 2])])
          (.wildcard (.child .root "items")) (.num 9))
    ∧ ∀ r ∈ resolve (JsonValue.obj [("items", .arr [.num 1, .num 2])])
        (.wildcard (.child .root "items")), r ≠ [] →
        getAt (replaceCore (JsonValue.obj [("items", .arr [.num 1, .num 2])])
          (.wildcard (.child .root "items")) (.num 9)) r = some (.num 9) := by
  have h := claim_C4_replace_amended (JsonValue.obj [("items", .arr [.num 1, .num 2])])
    "$.items[*]" (.wildcard (.child .root "items")) (.num 9) rfl rfl
  exact ⟨h.1, h.2.1⟩

/-- C3 counterexample: the TypeMismatch failure of appendToArrayAtPath does
not name the offending path — for the failing call on `$.a` the error is a
constant message in which the path `$.a` does not occur. -/
theorem claim_C3_counterexample :
    appendToArrayAtPath (JsonValue.obj [("a", .num 1)]) "$.a" (.num 2)
      = Except.error
          "Failed to append to array at path: Path must point to array(s) to append into"
    ∧ strContains
        "Failed to append to array at path: Path must point to array(s) to append into"
        "$.a" = false := by
  exact ⟨by rfl, by rfl⟩

/-- C3 (amended): appendToArrayAtPath requires every matched value itself to
be an array.  If any matched value is not an array the whole call fails with
the TypeMismatch error (a constant message that does not name the offending
path) and no document is returned — all-or-nothing; otherwise v is pushed
onto the end of every matched array and the new document is returned. -/
theorem claim_C3_append_amended (d : JsonValue) (s : String) (p : PathExpr) (v : JsonValue)
    (hp : parsePath s = some p) (hwf : wellFormed d = true) :
    ((∀ r ∈ resolve d p, ∃ xs, getAt d r = some (.arr xs)) →
      ∃ doc', appendToArrayAtPath d s v = Except.ok doc'
        ∧ ∀ r ∈ resolve d p, ∀ xs, getAt d r = some (.arr xs) →
            getAt doc' r = some (.arr (xs ++ [v])))
    ∧ (∀ r ∈ resolve d p, ∀ x, getAt d r = some x → isArr x = false →
        appendToArrayAtPath d s v = Except.error
          "Failed to append to array at path: Path must point to array(s) to append into") := by
  have hlen : ∀ r' ∈ resolve d p, ∀ r'' ∈ resolve d p, r'.length = r''.length :=
    fun r' h' r'' h'' => by rw [resolve_length d p r' h', resolve_length d p r'' h'']
  constructor
  · intro hall
    obtain ⟨doc', hok, hpost⟩ :=
      aFold_ok_of_allArr v (resolve d p) d (resolve_nodup d p hwf) hlen hall
    refine ⟨doc', ?_, hpost⟩
    simp only [appendToArrayAtPath, hp, appendCore, deepClone_eq, hok]
  · intro r hr x hx hnarr
    have herr := aFold_error_of_nonArr v (resolve d p) d r x (resolve_nodup d p hwf)
      hlen hr hx hnarr
    simp only [appendToArrayAtPath, hp, appendCore, deepClone_eq, herr]
    rfl

/-- Witness for the amended C3: the spec's positive example `$.items`. -/
theorem claim_C3_append_amended_witness :
    ∃ doc', appendToArrayAtPath (JsonValue.obj [("items", .arr [.num 1, .num 2, .num 3])])
        "$.items" (.num 4) = Except.ok doc'
      ∧ ∀ r ∈ resolve (JsonValue.obj [("items", .arr [.num 1, .num 2, .num 3])])
          (.child .root "items"),
          ∀ xs, getAt (JsonValue.obj [("items", .arr [.num 1, .num 2, .num 3])]) r
              = some (.arr xs) →
            getAt doc' r = some (.arr (xs ++ [.num 4])) := by
  refine (claim_C3_append_amended (JsonValue.obj [("items", .arr [.num 1, .num 2, .num 3])])
    "$.items" (.child .root "items") (.num 4) rfl rfl).1 ?_
  intro r hr
  have hres : resolve (JsonValue.obj [("items", .arr [.num 1, .num 2, .num 3])])
      (.child .root "items") = [[PathStep.key "items"]] := rfl
  rw [hres] at hr
  obtain rfl := List.mem_singleton.mp hr
  exact ⟨[.num 1, .num 2, .num 3], rfl⟩

/-- C5: when the path matches, setAtPath with applyToAll=false overwrites
only the first resolved location's parent[key] slot and leaves every other
matched location unchanged, while applyToAll=true overwrites the slot of
every resolved location. -/
theorem claim_C5_set_first_or_all (d : JsonValue) (s : String) (p : PathExpr) (v : JsonValue)
    (r : Route) (rs : List Route)
    (hp : parsePath s = some p) (hwf : wellFormed d = true)
    (hres : resolve d p = r :: rs) (hne : r ≠ []) :
    setAtPath d s v false = Except.ok (setAt d r v)
    ∧ (∀ r' ∈ rs, getAt (setAt d r v) r' = getAt d r')
    ∧ ∃ doc', setAtPath d s v true = Except.ok doc'
        ∧ ∀ r'' ∈ r :: rs, r'' ≠ [] → getAt doc' r'' = some v := by
  have hnd : (r :: rs).Nodup := hres ▸ resolve_nodup d p hwf
  have hlen : ∀ r' ∈ r :: rs, ∀ r'' ∈ r :: rs, r'.length = r''.length := by
    intro r' h' r'' h''
    rw [resolve_length d p r' (hres ▸ h'), resolve_length d p r'' (hres ▸ h'')]
  have hval : ∀ r' ∈ r :: rs, (getAt d r').isSome :=
    fun r' h' => resolve_valid d p r' (hres ▸ h')
  refine ⟨?_, ?_, ?_⟩
  · simp only [setAtPath, hp, deepClone_eq, hres]
    cases r with
    | nil => exact absurd rfl hne
    | cons s1 t => rfl
  · intro r' hr'
    refine getAt_setAt_ne d r' r v ?_ ?_
    · exact hlen r' (List.mem_cons_of_mem _ hr') r (List.mem_cons_self _ _)
    · intro hcontra; subst hcontra
      exact (List.nodup_cons.mp hnd).1 hr'
  · refine ⟨sFold v (r :: rs) d, ?_, ?_⟩
    · simp only [setAtPath, hp, deepClone_eq, hres, if_true]
    · intro r'' h'' hne''
      exact sFold_getAt_mem v (r :: rs) d r'' hnd
        (fun r3 h3 => hlen r3 h3 r'' h'') h'' hne'' (hval r'' h'')

/-- Witness for C5 on the two-match path `$.items[*].a`. -/
theorem claim_C5_set_first_or_all_witness :
    setAtPath (JsonValue.obj [("items", .arr [.obj [("a", .num 1)], .obj [("a", .num 2)]])])
        "$.items[*].a" (.str "x") false
      = Except.ok (setAt (JsonValue.obj [("items",
          .arr [.obj [("a", .num 1)], .obj [("a", .num 2)]])])
          [PathStep.key "items", PathStep.index 0, PathStep.key "a"] (.str "x"))
    ∧ ∃ doc', setAtPath
        (JsonValue.obj [("items", .arr [.obj [("a", .num 1)], .obj [("a", .num 2)]])])
        "$.items[*].a" (.str "x") true = Except.ok doc'
        ∧ ∀ r'' ∈ ([[PathStep.key "items", PathStep.index 0, PathStep.key "a"],
                     [PathStep.key "items", PathStep.index 1, PathStep.key "a"]] : List Route),
            r'' ≠ [] → getAt doc' r'' = some (.str "x") := by
  have h := claim_C5_set_first_or_all
    (JsonValue.obj [("items", .arr [.obj [("a", .num 1)], .obj [("a", .num 2)]])])
    "$.items[*].a" (.child (.wildcard (.child .root "items")) "a") (.str "x")
    [PathStep.key "items", PathStep.index 0, PathStep.key "a"]
    [[PathStep.key "items", PathStep.index 1, PathStep.key "a"]]
    rfl rfl rfl (by simp)
  exact ⟨h.1, h.2.2⟩

/-- C6: when the path matches nothing, setAtPath splits it into parent path
plus final key and resolves the parent path: zero parent matches fail with
ParentNotFound (intermediate containers are never created), a first parent
that is not a map fails with InvalidTarget, and otherwise the key is set on
the first resolved parent only, ignoring additional parent matches. -/
theorem claim_C6_set_creation (d : JsonValue) (s : String) (p : PathExpr) (v : JsonValue)
    (all : Bool) (pp0 keyExpr : String) (ppE : PathExpr)
    (hp : parsePath s = some p) (hres : resolve d p = [])
    (hsplit : splitParentAndKey s = some (pp0, keyExpr))
    (hpp : parsePath (if pp0 = "" then "$" else pp0) = some ppE) :
    (resolve d ppE = [] → setAtPath d s v all = Except.error "Parent path not found")
    ∧ (∀ pr prs, resolve d ppE = pr :: prs →
        (∀ fs, getAt d pr = some (.obj fs) →
          setAtPath d s v all
            = Except.ok (setAt d pr (.obj (objSet fs (extractKey keyExpr) v))))
        ∧ (∀ x, getAt d pr = some x → isObj x = false →
            setAtPath d s v all = Except.error "Parent must be an object to set a property")) := by
  constructor
  · intro hPE
    simp only [setAtPath, hp, deepClone_eq, hres, hsplit, hpp, hPE]
  · intro pr prs hPE
    constructor
    · intro fs hfs
      simp only [setAtPath, hp, deepClone_eq, hres, hsplit, hpp, hPE, hfs]
    · intro x hx hnobj
      cases x with
      | obj fs => simp [isObj] at hnobj
      | null => simp only [setAtPath, hp, deepClone_eq, hres, hsplit, hpp, hPE, hx]
      | bool _ => simp only [setAtPath, hp, deepClone_eq, hres, hsplit, hpp, hPE, hx]
      | num _ => simp only [setAtPath, hp, deepClone_eq, hres, hsplit, hpp, hPE, hx]
      | str _ => simp only [setAtPath, hp, deepClone_eq, hres, hsplit, hpp, hPE, hx]
      | arr _ => simp only [setAtPath, hp, deepClone_eq, hres, hsplit, hpp, hPE, hx]

mutual

theorem searchGo_eq_filter : ∀ (nl : String) (d : JsonValue) (path : String),
    searchGo nl d path = (specScalarLeaves d path).filter (fun pv => scalarHit nl pv.2)
  | nl, .null, path => by simp [searchGo, specScalarLeaves]
  | nl, .str s0, path => by
      by_cases h : strContains (toLowerStr s0) nl <;>
        simp [searchGo, specScalarLeaves, scalarHit, scalarString, List.filter_cons, h]
  | nl, .num n, path => by
      by_cases h : strContains (toLowerStr (toString n)) nl <;>
        simp [searchGo, specScalarLeaves, scalarHit, scalarString, List.filter_cons, h]
  | nl, .bool b, path => by
      by_cases h : strContains (toLowerStr (if b then "true" else "false")) nl <;>
        simp [searchGo, specScalarLeaves, scalarHit, scalarString, List.filter_cons, h]
  | nl, .arr xs, path => by
      rw [searchGo, specScalarLeaves, searchArr_eq_filter nl xs path 0]
  | nl, .obj fs, path => by
      rw [searchGo, specScalarLeaves, searchObj_eq_filter nl fs path]

theorem searchArr_eq_filter : ∀ (nl : String) (xs : List JsonValue) (path : String) (i : Nat),
    searchArr nl xs path i = (specScalarLeavesArr xs path i).filter (fun pv => scalarHit nl pv.2)
  | nl, [], path, i => by simp [searchArr, specScalarLeavesArr]
  | nl, x :: xs, path, i => by
      rw [searchArr, specScalarLeavesArr, List.filter_append,
        searchGo_eq_filter nl x _, searchArr_eq_filter nl xs path (i + 1)]

theorem searchObj_eq_filter : ∀ (nl : String) (fs : List (String × JsonValue)) (path : String),
    searchObj nl fs path = (specScalarLeavesObj fs path).filter (fun pv => scalarHit nl pv.2)
  | nl, [], path => by simp [searchObj, specScalarLeavesObj]
  | nl, (k, v) :: fs, path => by
      rw [searchObj, specScalarLeavesObj, List.filter_append,
        searchGo_eq_filter nl v _, searchObj_eq_filter nl fs path]

end

/-- C8: searchInJSON returns exactly the scalar (string/number/boolean) nodes
whose canonical string form contains the needle case-insensitively, paired
with their canonical path strings (root `$`, `[index]` for array descent,
`.key` for map descent), in depth-first order; containers and null are never
returned — the result is the needle-filter of the document's scalar-leaf
enumeration. -/
theorem claim_C8_search_leaves (d : JsonValue) (t : String) :
    searchInJSON d t = (specScalarLeaves d "$").filter (fun pv => needleMatches t pv.2) := by
  rw [searchInJSON, searchGo_eq_filter]
  rfl

theorem wordChar_ne (c : Char) (h : wordChar c = true) :
    (c == ']') = false ∧ (c == '[') = false ∧ (c == squote) = false
    ∧ (c == dquote) = false ∧ (c == '.') = false := by
  refine ⟨?_, ?_, ?_, ?_, ?_⟩
  · by_cases hc : c = ']'
    · subst hc; exact absurd h (by decide)
    · simp [hc]
  · by_cases hc : c = '['
    · subst hc; exact absurd h (by decide)
    · simp [hc]
  · by_cases hc : c = squote
    · subst hc; exact absurd h (by decide)
    · simp [hc]
  · by_cases hc : c = dquote
    · subst hc; exact absurd h (by decide)
    · simp [hc]
  · by_cases hc : c = '.'
    · subst hc; exact absurd h (by decide)
    · simp [hc]

theorem scanStep_word (c : Char) (st : Int × Bool × Bool) (h : wordChar c = true) :
    scanStep c st = st := by
  obtain ⟨dpt, inS, inD⟩ := st
  obtain ⟨h1, h2, h3, h4, _⟩ := wordChar_ne c h
  simp [scanStep, h1, h2, h3, h4]

theorem splitScan_skip_word (w : List Char) :
    ∀ (rest : List Char) (st : Int × Bool × Bool) (idx : Nat),
    (∀ c ∈ w, wordChar c = true) →
    splitScan (w ++ rest) st idx = splitScan rest st (idx - w.length) := by
  induction w with
  | nil => intro rest st idx _; simp
  | cons c w ih =>
      intro rest st idx hw
      have hch := hw c (List.mem_cons_self _ _)
      obtain ⟨_, _, _, _, h5⟩ := wordChar_ne c hch
      obtain ⟨dpt, inS, inD⟩ := st
      rw [List.cons_append, splitScan, scanStep_word c _ hch]
      simp only [h5, Bool.false_and, if_neg (by simp : ¬(false = true))]
      rw [ih rest (dpt, inS, inD) (idx - 1) (fun c' hc' => hw c' (List.mem_cons_of_mem _ hc'))]
      have harith : idx - 1 - w.length = idx - (c :: w).length := by
        rw [List.length_cons]; omega
      rw [harith]

theorem splitScan_in_single (w : List Char) :
    ∀ (rest : List Char) (dpt : Int) (idx : Nat),
    (∀ c ∈ w, (c == squote) = false) →
    splitScan (w ++ rest) (dpt, true, false) idx
      = splitScan rest (dpt, true, false) (idx - w.length) := by
  induction w with
  | nil => intro rest dpt idx _; simp
  | cons c w ih =>
      intro rest dpt idx hw
      have hch := hw c (List.mem_cons_self _ _)
      rw [List.cons_append, splitScan]
      have hstep : scanStep c (dpt, true, false) = (dpt, true, false) := by
        simp [scanStep, hch]
      rw [hstep]
      simp only [Bool.not_true, Bool.and_false, Bool.false_and, Bool.and_self,
        if_neg (by simp : ¬(false = true))]
      rw [ih rest dpt (idx - 1) (fun c' hc' => hw c' (List.mem_cons_of_mem _ hc'))]
      have harith : idx - 1 - w.length = idx - (c :: w).length := by
        rw [List.length_cons]; omega
      rw [harith]

theorem splitScan_le (l : List Char) :
    ∀ (st : Int × Bool × Bool) (idx j : Nat), splitScan l st idx = some j → j ≤ idx := by
  induction l with
  | nil => intro st idx j h; simp [splitScan] at h
  | cons c rest ih =>
      intro st idx j h
      obtain ⟨dpt, inS, inD⟩ := st
      rw [splitScan] at h
      split at h
      split at h
      · obtain rfl : idx = j := by simpa using h
        exact Nat.le_refl _
      · exact Nat.le_trans (ih _ _ _ h) (Nat.sub_le idx 1)

/-- The final-segment split finds a trailing `.name` (word-character name)
segment for any prefix: the scan from the end passes over the name and stops
at the dot, whatever brackets or quotes the prefix contains. -/
theorem splitParentAndKey_dot_word (base : String) (kcs : List Char)
    (hw : ∀ c ∈ kcs, wordChar c = true) :
    splitParentAndKey (base ++ ⟨'.' :: kcs⟩) = some (base, ⟨kcs⟩) := by
  have hdata : (base ++ (⟨'.' :: kcs⟩ : String)).data = base.data ++ '.' :: kcs := rfl
  have hlen : (base ++ (⟨'.' :: kcs⟩ : String)).length = base.length + (kcs.length + 1) := by
    show (base.data ++ '.' :: kcs).length = base.length + (kcs.length + 1)
    simp [List.length_append]
  rw [splitParentAndKey, hdata, List.reverse_append, List.reverse_cons, List.append_assoc]
  rw [splitScan_skip_word kcs.reverse _ _ _ (fun c hc => hw c (List.mem_reverse.mp hc))]
  rw [List.singleton_append]
  have hstep : ∀ idx, splitScan ('.' :: base.data.reverse) (0, false, false) idx
      = some idx := fun idx => rfl
  rw [hstep]
  have hidx : (base ++ (⟨'.' :: kcs⟩ : String)).length - 1 - kcs.reverse.length
      = base.length := by
    rw [hlen, List.length_reverse]; omega
  rw [hidx]
  have hblen : base.length = base.data.length := rfl
  have htake : (base.data ++ '.' :: kcs).take base.length = base.data :=
    List.take_left' hblen.symm
  have hdrop : (base.data ++ '.' :: kcs).drop (base.length + 1) = kcs := by
    have hsplit2 : base.data ++ '.' :: kcs = (base.data ++ ['.']) ++ kcs := by simp
    rw [hsplit2]
    exact List.drop_left' (by simp [← hblen])
  show some ((⟨(base.data ++ '.' :: kcs).take base.length⟩ : String),
      (⟨(base.data ++ '.' :: kcs).drop (base.length + 1)⟩ : String)) = some (base, ⟨kcs⟩)
  rw [htake, hdrop]

/-- The final-segment split never splits inside a bracket segment: scanning a
trailing `['inner']` (no quote characters in `inner`, dots allowed) leaves
the quote/depth state balanced, so the split of `base ++ ['inner']` is the
split of `base` with the bracket segment carried on the key side. -/
theorem splitParentAndKey_bracket_suffix (base inner : String)
    (hin : ∀ c ∈ inner.data, (c == squote) = false) :
    splitParentAndKey (base ++ "[" ++ sqStr ++ inner ++ sqStr ++ "]")
      = Option.map (fun pr => (pr.1, pr.2 ++ "[" ++ sqStr ++ inner ++ sqStr ++ "]"))
          (splitParentAndKey base) := by
  have hdata : (base ++ "[" ++ sqStr ++ inner ++ sqStr ++ "]").data
      = base.data ++ '[' :: squote :: (inner.data ++ squote :: [']']) := by
    show base.data ++ ['['] ++ [squote] ++ inner.data ++ [squote] ++ [']']
      = base.data ++ '[' :: squote :: (inner.data ++ squote :: [']'])
    simp
  have hrev : (base.data ++ '[' :: squote :: (inner.data ++ squote :: [']'])).reverse
      = ']' :: squote :: (inner.data.reverse
          ++ squote :: '[' :: base.data.reverse) := by
    simp
  have hlen : (base ++ "[" ++ sqStr ++ inner ++ sqStr ++ "]").length
      = base.length + (inner.length + 4) := by
    show (((((base.data ++ ['[']) ++ [squote]) ++ inner.data) ++ [squote]) ++ [']']).length
      = base.length + (inner.length + 4)
    simp [List.length_append]
  rw [splitParentAndKey, hdata, hrev]
  have hs1 : ∀ (tl : List Char) (idx : Nat), splitScan (']' :: tl) (0, false, false) idx
      = splitScan tl (1, false, false) (idx - 1) := fun tl idx => rfl
  have hs2 : ∀ (tl : List Char) (idx : Nat), splitScan (squote :: tl) (1, false, false) idx
      = splitScan tl (1, true, false) (idx - 1) := fun tl idx => rfl
  have hs3 : ∀ (tl : List Char) (idx : Nat), splitScan (squote :: tl) (1, true, false) idx
      = splitScan tl (1, false, false) (idx - 1) := fun tl idx => rfl
  have hs4 : ∀ (tl : List Char) (idx : Nat), splitScan ('[' :: tl) (1, false, false) idx
      = splitScan tl (0, false, false) (idx - 1) := fun tl idx => rfl
  rw [hs1, hs2]
  rw [splitScan_in_single inner.data.reverse _ _ _
    (fun c hc => hin c (List.mem_reverse.mp hc))]
  rw [hs3, hs4]
  have hidx : (base ++ "[" ++ sqStr ++ inner ++ sqStr ++ "]").length - 1 - 1 - 1
      - inner.data.reverse.length - 1 - 1 = base.length - 1 := by
    rw [hlen, List.length_reverse]
    have hi : inner.data.length = inner.length := rfl
    omega
  rw [hidx]
  rw [splitParentAndKey]
  cases hscan : splitScan base.data.reverse (0, false, false) (base.length - 1) with
  | none => rfl
  | some j =>
      have hj : j ≤ base.length - 1 := splitScan_le _ _ _ _ hscan
      have hjlt : j < base.data.length := by
        have hbpos : base.data.length ≠ 0 := by
          intro h0
          have : base.data.reverse = [] := by
            have := List.length_reverse base.data ▸ h0
            exact List.eq_nil_of_length_eq_zero (by simpa using h0)
          rw [this] at hscan
          simp [splitScan] at hscan
        have : base.length = base.data.length := rfl
        omega
      simp only [Option.map_some]
      have htake : (base.data ++ '[' :: squote :: (inner.data ++ squote :: [']'])).take j
          = base.data.take j := List.take_append_of_le_length (Nat.le_of_lt hjlt)
      have hdrop : (base.data ++ '[' :: squote :: (inner.data ++ squote :: [']'])).drop (j + 1)
          = base.data.drop (j + 1) ++ '[' :: squote :: (inner.data ++ squote :: [']']) :=
        List.drop_append_of_le_length hjlt
      rw [htake, hdrop]
      show some ((⟨base.data.take j⟩ : String),
          (⟨base.data.drop (j + 1) ++ '[' :: squote :: (inner.data ++ squote :: [']'])⟩ : String))
        = some ((⟨base.data.take j⟩ : String),
            (⟨base.data.drop (j + 1)⟩ : String) ++ "[" ++ sqStr ++ inner ++ sqStr ++ "]")
      have : ((⟨base.data.drop (j + 1)⟩ : String) ++ "[" ++ sqStr ++ inner ++ sqStr ++ "]").data
          = base.data.drop (j + 1) ++ '[' :: squote :: (inner.data ++ squote :: [']']) := by
        show base.data.drop (j + 1) ++ ['['] ++ [squote] ++ inner.data ++ [squote] ++ [']']
          = base.data.drop (j + 1) ++ '[' :: squote :: (inner.data ++ squote :: [']'])
        simp
      rw [show ((⟨base.data.drop (j + 1) ++ '[' :: squote :: (inner.data ++ squote :: [']'])⟩ :
          String)) = (⟨base.data.drop (j + 1)⟩ : String) ++ "[" ++ sqStr ++ inner ++ sqStr ++ "]"
        from by rw [show ∀ (l : List Char), (⟨l⟩ : String) = ⟨l⟩ from fun _ => rfl]; exact congrArg String.mk this.symm]

/-- C7 counterexample: a trailing bracket segment `['name']` NOT preceded by
a dot is mis-handled: `splitParentAndKey` only splits at dots, so
`$.a['name']` splits as `$` + `a['name']` and creation installs the literal
key `a['name']` on the root instead of `name` on `$.a`. -/
theorem claim_C7_counterexample :
    splitParentAndKey ("$.a[" ++ sqStr ++ "name" ++ sqStr ++ "]")
      = some ("$", "a[" ++ sqStr ++ "name" ++ sqStr ++ "]")
    ∧ setAtPath (JsonValue.obj [("a", .obj [])])
        ("$.a[" ++ sqStr ++ "name" ++ sqStr ++ "]") (.num 7) false
      = Except.ok (JsonValue.obj [("a", .obj []),
          ("a[" ++ sqStr ++ "name" ++ sqStr ++ "]", .num 7)])
    ∧ JsonValue.obj [("a", .obj []), ("a[" ++ sqStr ++ "name" ++ sqStr ++ "]", .num 7)]
      ≠ JsonValue.obj [("a", .obj [("name", .num 7)])] := by
  refine ⟨by rfl, by rfl, by decide⟩

/-- C7 (amended): the final-segment split does account for bracket and quote
nesting — a bracket segment is never mis-split on an internal dot, and a
trailing `.name` segment is split off correctly after any prefix — and safe
creation installs exactly `name` on the existing map parent for a trailing
`.name` segment and for bracket segments in the dotted form `.['name']`; a
trailing bracket segment without the dot is instead split at an earlier dot
(see the counterexample). -/
theorem claim_C7_split_amended :
    (∀ (base : String) (kcs : List Char), (∀ c ∈ kcs, wordChar c = true) →
      splitParentAndKey (base ++ ⟨'.' :: kcs⟩) = some (base, ⟨kcs⟩))
    ∧ (∀ (base inner : String), (∀ c ∈ inner.data, (c == squote) = false) →
      splitParentAndKey (base ++ "[" ++ sqStr ++ inner ++ sqStr ++ "]")
        = Option.map (fun pr => (pr.1, pr.2 ++ "[" ++ sqStr ++ inner ++ sqStr ++ "]"))
            (splitParentAndKey base))
    ∧ setAtPath (JsonValue.obj [("a", .obj [])]) "$.a.newKey" (.num 7) false
      = Except.ok (JsonValue.obj [("a", .obj [("newKey", .num 7)])])
    ∧ setAtPath (JsonValue.obj [("a", .obj [])])
        ("$.a.[" ++ sqStr ++ "name" ++ sqStr ++ "]") (.num 7) false
      = Except.ok (JsonValue.obj [("a", .obj [("name", .num 7)])]) := by
  exact ⟨splitParentAndKey_dot_word, splitParentAndKey_bracket_suffix, by rfl, by rfl⟩

/-- Witness for the amended C7: the dot-name split after a bracketed prefix,
and the bracket suffix carrying an internal dot, at concrete inputs. -/
theorem claim_C7_split_amended_witness :
    splitParentAndKey ("$.parent" ++ ⟨'.' :: ['k', 'e', 'y']⟩)
      = some ("$.parent", ⟨['k', 'e', 'y']⟩)
    ∧ splitParentAndKey ("$.a" ++ "[" ++ sqStr ++ "x.y" ++ sqStr ++ "]")
      = Option.map (fun pr => (pr.1, pr.2 ++ "[" ++ sqStr ++ "x.y" ++ sqStr ++ "]"))
          (splitParentAndKey "$.a") :=
  ⟨claim_C7_split_amended.1 "$.parent" ['k', 'e', 'y'] (by decide),
   claim_C7_split_amended.2.1 "$.a" "x.y" (by decide)⟩

/-- C9 counterexample: `query(replace(D,p,v),p) = [v]` fails for a path
matching exactly one scalar in two ways the code exhibits: the root path `$`
on a scalar document (the root match is skipped, so the old value is
returned), and a filter path whose final segment is the filtered key (after
replacement the filter no longer matches, so the query is empty). -/
theorem claim_C9_counterexample :
    (replaceAtPath (JsonValue.num 1) "$" (JsonValue.num 2) = Except.ok (JsonValue.num 1)
      ∧ queryByPath (JsonValue.num 1) "$" = Except.ok [JsonValue.num 1]
      ∧ ([JsonValue.num 1] : List JsonValue) ≠ [JsonValue.num 2])
    ∧ (replaceAtPath (JsonValue.obj [("a", .arr [.obj [("c", .str "f")]])])
          "$.a[?(@.c=='f')].c" (.str "g")
        = Except.ok (JsonValue.obj [("a", .arr [.obj [("c", .str "g")]])])
      ∧ queryByPath (JsonValue.obj [("a", .arr [.obj [("c", .str "g")]])])
          "$.a[?(@.c=='f')].c" = Except.ok []
      ∧ ([] : List JsonValue) ≠ [.str "g"]) := by
  refine ⟨⟨by rfl, by rfl, by decide⟩, ⟨by rfl, by rfl, by decide⟩⟩

/-- C9 (amended): for a filter-free path that resolves to exactly one
location, not the document root, holding a scalar, querying the replaced
document returns exactly the replacement: query(replace(D,p,v),p) = [v]. -/
theorem claim_C9_query_replace_amended (d : JsonValue) (s : String) (p : PathExpr)
    (v : JsonValue) (r : Route) (x : JsonValue)
    (hp : parsePath s = some p) (hff : filterFree p = true)
    (hres : resolve d p = [r]) (hne : r ≠ [])
    (hx : getAt d r = some x) (_hxs : isScalar x = true) :
    replaceAtPath d s v = Except.ok (replaceCore d p v)
    ∧ queryByPath (replaceCore d p v) s = Except.ok [v] := by
  have hmem : r ∈ resolve d p := by rw [hres]; exact List.mem_singleton.mpr rfl
  have hdep : depth p ≤ r.length := le_of_eq (resolve_length d p r hmem).symm
  have hrc : replaceCore d p v = setAt d r v := by
    rw [replaceCore, deepClone_eq, hres]
    cases r with
    | nil => exact absurd rfl hne
    | cons s1 t => rfl
  refine ⟨by simp only [replaceAtPath, hp], ?_⟩
  rw [hrc]
  have hq : getAt (setAt d r v) r = some v := getAt_setAt_self d r x v hx
  simp [queryByPath, hp, queryCore, resolve_setAt v p d r x hff hx hdep, hres, hq]

/-- Witness for the amended C9 on the single-scalar path `$.a`. -/
theorem claim_C9_query_replace_amended_witness :
    replaceAtPath (JsonValue.obj [("a", .num 1)]) "$.a" (.num 7)
      = Except.ok (replaceCore (JsonValue.obj [("a", .num 1)]) (.child .root "a") (.num 7))
    ∧ queryByPath (replaceCore (JsonValue.obj [("a", .num 1)]) (.child .root "a") (.num 7))
        "$.a" = Except.ok [.num 7] :=
  claim_C9_query_replace_amended (JsonValue.obj [("a", .num 1)]) "$.a" (.child .root "a")
    (.num 7) [PathStep.key "a"] (.num 1) rfl rfl rfl (by decide) rfl rfl

/-- Witness for C6: the spec's no-intermediate-creation example. -/
theorem claim_C6_set_creation_witness :
    setAtPath (JsonValue.obj []) "$.newRoot.level1.level2.key" (.num 123) false
      = Except.error "Parent path not found" :=
  (claim_C6_set_creation (JsonValue.obj []) "$.newRoot.level1.level2.key"
    (.child (.child (.child (.child .root "newRoot") "level1") "level2") "key")
    (.num 123) false "$.newRoot.level1.level2" "key"
    (.child (.child (.child .root "newRoot") "level1") "level2")
    rfl rfl rfl rfl).1 rfl

end JsonMcp
